import Mathlib

/-!
Verification of the extraction + retrieval pipeline in `src/main.py`.

Strings are modelled as `List Char`.  Python's `dict` (insertion ordered,
string keys) is modelled as an association list with unique keys, where
assignment to an existing key updates the value in place and assignment to a
fresh key appends at the end, exactly as CPython dicts behave.

The embedding model (`SentenceTransformer`) is an external collaborator; it is
modelled as an abstract deterministic function `encode : List Char → List ℤ`
carried inside the `RAGModel` state.  Cosine similarity is exact integer /
real arithmetic instead of floating point (integer vectors lose no
generality: cosine comparisons are invariant under positive scaling of any
single vector, so any rational float vector can be cleared of denominators); the ranking logic only ever
compares similarity values, and the comparison is implemented exactly over ℤ
and proved equivalent to the comparison of the real-valued cosine.
-/

namespace Main

/-- One Python string, as a list of unicode scalar values. -/
abbrev Str := List Char

/-- A Python `Dict[str, str]` with its insertion order: an association list
whose keys are unique. -/
abbrev Record := List (Str × Str)

/-- Python `str.isspace` characters: the full class stripped by
`str.strip()` and matched by the regex class `\s` on `str` patterns (ASCII
whitespace, the C1 information separators, NEL, NBSP, OGHAM SPACE MARK, the
EN QUAD .. HAIR SPACE range U+2000-U+200A, LINE and PARAGRAPH SEPARATOR,
NARROW NO-BREAK SPACE, MEDIUM MATHEMATICAL SPACE, IDEOGRAPHIC SPACE). -/
def pyIsSpace (c : Char) : Bool :=
  c = ' ' || c = '\t' || c = '\n' || c = '\x0b' || c = '\x0c' || c = '\r' ||
  c = '\x1c' || c = '\x1d' || c = '\x1e' || c = '\x1f' || c = '\x85' ||
  c = '\xa0' || c = '\u1680' ||
  (0x2000 ≤ c.toNat && c.toNat ≤ 0x200a) ||
  c = '\u2028' || c = '\u2029' || c = '\u202f' || c = '\u205f' || c = '\u3000'

/-- Python `str.splitlines` line boundary characters (other than the
two-character boundary `"\r\n"`, handled separately). -/
def isLineBoundary (c : Char) : Bool :=
  c = '\n' || c = '\r' || c = '\x0b' || c = '\x0c' ||
  c = '\x1c' || c = '\x1d' || c = '\x1e' || c = '\x85' ||
  c = ' ' || c = ' '

/-- Worker for `pySplitlines`; `acc` is the current line, reversed. -/
def pySplitlinesAux : List Char → List Char → List Str
  | [], acc => if acc.isEmpty then [] else [acc.reverse]
  | '\r' :: '\n' :: rest2, acc => acc.reverse :: pySplitlinesAux rest2 []
  | c :: rest, acc =>
    if isLineBoundary c then acc.reverse :: pySplitlinesAux rest []
    else pySplitlinesAux rest (c :: acc)

/-- Python `text.splitlines()`: split on line boundaries, `"\r\n"` counting
as a single boundary; a trailing boundary does not produce a final empty
line, and the empty string yields no lines at all. -/
def pySplitlines (s : Str) : List Str :=
  pySplitlinesAux s []

/-- Python `s.strip()`: remove leading and trailing whitespace. -/
def pyStrip (s : Str) : Str :=
  ((s.dropWhile pyIsSpace).reverse.dropWhile pyIsSpace).reverse

/-- Split a string at its first colon: `splitFirstColon s = some (a, b)` when
`s = a ++ ':' :: b` and `a` is colon free; `none` when `s` has no colon. -/
def splitFirstColon : List Char → Option (List Char × List Char)
  | [] => none
  | c :: rest =>
    if c = ':' then some ([], rest)
    else (splitFirstColon rest).map (fun p => (c :: p.1, p.2))

/-- `re.search(r'(.+?):\s*(.*)', line)` followed by `.strip()` on both
groups, as in `extract_information`.  The lazy group `(.+?)` needs at least
one character before the colon, so the leftmost match puts the split at the
first colon that has at least one character in front of it; `\s*` plus
`.strip()` on group 2 amounts to stripping everything after that colon. -/
def lineMatch (line : Str) : Option (Str × Str) :=
  match line with
  | [] => none
  | c :: rest =>
    (splitFirstColon rest).map (fun p => (pyStrip (c :: p.1), pyStrip p.2))

/-- Python `k in d` on a dict. -/
def keyMem (m : Record) (k : Str) : Prop :=
  k ∈ m.map Prod.fst

instance (m : Record) (k : Str) : Decidable (keyMem m k) := by
  unfold keyMem; infer_instance

/-- Python dict assignment `d[k] = v`: update in place when the key exists,
otherwise append at the end. -/
def insertKV (m : Record) (k v : Str) : Record :=
  if keyMem m k then
    m.map (fun p => if p.1 = k then (k, v) else p)
  else
    m ++ [(k, v)]

/-- Python `d[k]` / `d.get(k)` on a dict (keys are unique, so the first hit
is the binding). -/
def dictLookup (m : Record) (k : Str) : Option Str :=
  (m.find? (fun p => p.1 = k)).map (fun p => p.2)

/-- One loop iteration of the first pass of
`InformationExtractor.extract_information`: run the regex on the line and,
on a match, assign `results[key] = value`. -/
def passStep (acc : Record) (line : Str) : Record :=
  match lineMatch line with
  | some kv => insertKV acc kv.1 kv.2
  | none => acc

/-- First pass of `extract_information`. -/
def firstPass (lines : List Str) : Record :=
  lines.foldl passStep []

/-- One loop iteration of the second pass of `extract_information`: for a
line that is non-empty (`if line`, no trimming) and not already a key
(`line not in results`), assign `results[line] = ""`. -/
def secondStep (acc : Record) (line : Str) : Record :=
  if line ≠ [] ∧ ¬ keyMem acc line then acc ++ [(line, [])] else acc

/-- Second pass of `extract_information`. -/
def secondPass (lines : List Str) (r : Record) : Record :=
  lines.foldl secondStep r

/-- `InformationExtractor.extract_information` from `src/main.py`. -/
def extract_information (text : Str) : Record :=
  let lines := pySplitlines text
  secondPass lines (firstPass lines)

/-!
### The retrieval model

`RAGModel` holds the two dicts of `src/main.py` plus the embedding model
itself, which is an external collaborator (`SentenceTransformer`): it is
modelled as an arbitrary deterministic function `encode` from strings to
integer vectors.  Similarity values are never materialized as numbers by
the embedding; instead the ranking compares them through `cosGeB`, an exact
integer decision procedure proved below to agree with comparison of the
real-valued cosine `simVal` (`dot(a,b) / (norm(a) * norm(b))`, with zero
norms replaced by 1 exactly as `sklearn`'s `cosine_similarity` does).

`sorted(similarities.items(), key=lambda x: x[1], reverse=True)` in `query`
is a stable sort on a list whose original order is ascending insertion
index, so its output is the unique permutation ordered by descending
similarity with ties broken by ascending index.  `rankLe` is that total
order (the tie-break is part of the order), and `List.insertionSort` with
`rankLe` computes the same unique sorted permutation.
-/

/-- Sum of squares of an embedding vector (`norm` squared). -/
def sqNormQ (v : List ℤ) : ℤ := (v.map (fun x => x * x)).sum

/-- Dot product of two embedding vectors. -/
def dotQ (u v : List ℤ) : ℤ := (List.zipWith (fun a b => a * b) u v).sum

/-- Squared norm with `sklearn`'s zero-norm guard: a zero vector is treated
as having norm 1, so its cosine similarity with anything is 0. -/
def adjNormSq (v : List ℤ) : ℤ := if sqNormQ v = 0 then 1 else sqNormQ v

/-- Decides `cos(q,u) ≥ cos(q,v)` exactly over ℤ by clearing the square
roots: `cos(q,u) ≥ cos(q,v)` iff `dot(q,u) * sqrt(adj v) ≥ dot(q,v) * sqrt(adj u)`,
settled by sign analysis and squaring. -/
def cosGeB (q u v : List ℤ) : Bool :=
  if 0 ≤ dotQ q u then
    (if 0 < dotQ q v then
      decide (dotQ q v * dotQ q v * adjNormSq u ≤ dotQ q u * dotQ q u * adjNormSq v)
    else true)
  else
    (if 0 < dotQ q v then false
    else decide (dotQ q u * dotQ q u * adjNormSq v ≤ dotQ q v * dotQ q v * adjNormSq u))

/-- The real-valued cosine similarity used for specification statements:
`dot(q,v) / (norm(q) * norm(v))` with zero norms replaced by 1. -/
noncomputable def simVal (q v : List ℤ) : ℝ :=
  ((dotQ q v : ℤ) : ℝ) / (Real.sqrt ((adjNormSq q : ℤ) : ℝ) * Real.sqrt ((adjNormSq v : ℤ) : ℝ))

/-- State of `RAGModel` from `src/main.py`: the embedding model and the two
insertion-ordered dicts `document_embeddings` and `documents`. -/
structure RAGModel where
  encode : Str → List ℤ
  document_embeddings : List (ℕ × List ℤ)
  documents : List (ℕ × Record)

/-- `RAGModel.__init__`: empty dicts. -/
def ragInit (encode : Str → List ℤ) : RAGModel := ⟨encode, [], []⟩

/-- Python `k in d` for the integer-keyed dicts. -/
def keyMemN {α : Type} (d : List (ℕ × α)) (k : ℕ) : Prop :=
  k ∈ d.map Prod.fst

instance {α : Type} (d : List (ℕ × α)) (k : ℕ) : Decidable (keyMemN d k) := by
  unfold keyMemN; infer_instance

/-- Python dict assignment `d[k] = v` for the integer-keyed dicts. -/
def dictInsertN {α : Type} (d : List (ℕ × α)) (k : ℕ) (v : α) : List (ℕ × α) :=
  if keyMemN d k then d.map (fun p => if p.1 = k then (k, v) else p)
  else d ++ [(k, v)]

/-- Python `d[k]` with a default for the integer-keyed dicts (`query` only
looks up indices that are present). -/
def dictGetN {α : Type} (d : List (ℕ × α)) (k : ℕ) (dflt : α) : α :=
  match d.find? (fun p => p.1 = k) with
  | some p => p.2
  | none => dflt

/-- The representative string of `add_documents`:
`' '.join(f"{k}: {v}" for k, v in content.items() if v)`. -/
def reprText (r : Record) : Str :=
  List.intercalate [' ']
    ((r.filter (fun e => !e.2.isEmpty)).map (fun e => e.1 ++ ':' :: ' ' :: e.2))

/-- One iteration of the loop in `RAGModel.add_documents`. -/
def addStep (st : RAGModel) (iv : ℕ × Record) : RAGModel :=
  { st with
    document_embeddings :=
      dictInsertN st.document_embeddings iv.1 (st.encode (reprText iv.2)),
    documents := dictInsertN st.documents iv.1 iv.2 }

/-- `RAGModel.add_documents`: `for index, content in enumerate(documents)`. -/
def add_documents (m : RAGModel) (docs : List Record) : RAGModel :=
  (docs.enum).foldl addStep m

/-- The ranking order of `query`: descending similarity to the query
embedding, ties broken by ascending insertion index (stability of Python's
`sorted`). -/
def rankLe (q : List ℤ) (a b : ℕ × List ℤ) : Prop :=
  cosGeB q a.2 b.2 = true ∧ (cosGeB q b.2 a.2 = true → a.1 ≤ b.1)

instance (q : List ℤ) : DecidableRel (rankLe q) := by
  unfold rankLe; infer_instance

/-- `sorted(similarities.items(), key=lambda x: x[1], reverse=True)`. -/
def rankedEntries (st : RAGModel) (question : Str) : List (ℕ × List ℤ) :=
  List.insertionSort (rankLe (st.encode question)) st.document_embeddings

/-- Python slice `l[:k]` for an arbitrary (possibly negative) integer `k`:
non-negative `k` keeps the first `k` elements, negative `k` drops the last
`|k|` elements. -/
def pySliceTo {α : Type} (l : List α) (k : ℤ) : List α :=
  if 0 ≤ k then l.take k.toNat else l.take (l.length - (-k).toNat)

/-- `RAGModel.query`: rank all stored entries, slice `[:top_k]`, and return
the corresponding stored records. -/
def query (st : RAGModel) (question : Str) (top_k : ℤ) : List Record :=
  (pySliceTo (rankedEntries st question) top_k).map
    (fun p => dictGetN st.documents p.1 [])

/-- Deterministic stub vectorizer used for concrete instances (the spec
itself prescribes testing the ranking with a stub): the embedding of a
string is the one-element vector holding its length plus one. -/
def encStub : Str → List ℤ := fun s => [(s.length : ℤ) + 1]

/-- Two concrete records used in concrete query instances. -/
def docsStub : List Record :=
  [[((("a").data), (("b").data))], [((("c").data), (("d").data))]]

/-- Concrete records with identical representative strings: the second one
has an extra empty-valued entry, which the representative string omits. -/
def d0C8 : Record := [((("a").data), (("b").data))]

/-- See `d0C8`. -/
def d1C8 : Record := [((("a").data), (("b").data)), ((("c").data), [])]

/-!
### The document pipeline of `main`

The format decoders (`pdfplumber`, `BeautifulSoup`) are external
collaborators: a document is modelled by its file extension together with
the outcome of its decoder, `none` when the decoder raised (the code
catches the exception, logs and falls back to `""`), `some text` when it
returned text.  `DocumentParser.parse_document` consults the decoder only
for the two supported extensions and yields `""` otherwise.
-/

/-- Python `str.lower` on the ASCII file extensions compared here. -/
def asciiLower (s : Str) : Str := s.map Char.toLower

/-- `DocumentParser.parse_document`, with the decoder boundary abstracted
as described above. -/
def parse_document (ext : Str) (decoded : Option Str) : Str :=
  if asciiLower ext = ((".pdf").data) ∨ asciiLower ext = ((".html").data) then
    match decoded with
    | some t => t
    | none => []
  else []

/-- The extraction stage of `main`: parse every document and extract one
record per document, in input order. -/
def pipeline (docsIn : List (Str × Option Str)) : List Record :=
  docsIn.map (fun d => extract_information (parse_document d.1 d.2))

/-- A concrete pipeline input whose only document has an unsupported
extension. -/
def pipeStub : List (Str × Option Str) := [(((".txt").data), some (("x").data))]

/-!
### The JSON output artifact

`InformationExtractor.save_to_json` delegates to the standard library:
`json.dump(data, f, indent=4)`, and the round-trip property reads it back
with `json.load`.  Both are external collaborators (the spec places
persistence outside the core), so they are modelled here from their
documented behaviour for the artifact's exact shape — a JSON array of
string-to-string objects: `json_dumps` reproduces the exact text Python
writes (indent 4, separators `", "` dropped to `",\n" + indent` and
`": "`, `ensure_ascii` escaping with `\uXXXX` and surrogate pairs), and
`json_loads` is a recursive-descent reader of that grammar which skips
JSON whitespace between tokens, rejects raw control characters in strings
(`strict=True`), decodes all escapes, recombines surrogate pairs, and
builds each object by successive `d[key] = value` assignment (duplicate
keys: last one wins).  Lone surrogates, which Lean `Char` cannot
represent, make `json_loads` fail; Python would instead keep them, but the
serializer never emits them for valid scalar values. -/

/-- One lowercase hex digit. -/
def hexDigitChar (n : ℕ) : Char :=
  if n < 10 then Char.ofNat ('0'.toNat + n) else Char.ofNat ('a'.toNat + (n - 10))

/-- Four lowercase hex digits of a number below 0x10000. -/
def hex4 (n : ℕ) : List Char :=
  [hexDigitChar (n / 4096 % 16), hexDigitChar (n / 256 % 16),
    hexDigitChar (n / 16 % 16), hexDigitChar (n % 16)]

/-- `json.dump`'s `ensure_ascii` escaping of one character. -/
def jsonEscapeChar (c : Char) : List Char :=
  if c = '"' then ['\\', '"']
  else if c = '\\' then ['\\', '\\']
  else if c = '\x08' then ['\\', 'b']
  else if c = '\t' then ['\\', 't']
  else if c = '\n' then ['\\', 'n']
  else if c = '\x0c' then ['\\', 'f']
  else if c = '\r' then ['\\', 'r']
  else if 0x20 ≤ c.toNat ∧ c.toNat ≤ 0x7e then [c]
  else if c.toNat < 0x10000 then '\\' :: 'u' :: hex4 c.toNat
  else
    ('\\' :: 'u' :: hex4 (0xd800 + (c.toNat - 0x10000) / 0x400)) ++
      ('\\' :: 'u' :: hex4 (0xdc00 + (c.toNat - 0x10000) % 0x400))

/-- A JSON string literal: quoted and escaped. -/
def jsonString (s : Str) : List Char :=
  '"' :: (List.flatten (s.map jsonEscapeChar) ++ ['"'])

/-- Newline plus one indent level of four spaces. -/
def nl4 : List Char := ['\n', ' ', ' ', ' ', ' ']

/-- Newline plus two indent levels. -/
def nl8 : List Char := ['\n', ' ', ' ', ' ', ' ', ' ', ' ', ' ', ' ']

/-- One `"key": "value"` member. -/
def pairStr (kv : Str × Str) : List Char :=
  jsonString kv.1 ++ ':' :: ' ' :: jsonString kv.2

/-- The remaining members of an object, each preceded by the item
separator `","` plus the newline-indent. -/
def membersRest : Record → List Char
  | [] => []
  | kv :: r => ',' :: nl8 ++ pairStr kv ++ membersRest r

/-- One record as a pretty-printed JSON object at nesting level one. -/
def jsonDict (r : Record) : List Char :=
  match r with
  | [] => ['{', '}']
  | kv :: r => '{' :: nl8 ++ pairStr kv ++ membersRest r ++ nl4 ++ ['}']

/-- The remaining elements of the top-level array. -/
def itemsRest : List Record → List Char
  | [] => []
  | d :: ds => ',' :: nl4 ++ jsonDict d ++ itemsRest ds

/-- `json.dump(data, f, indent=4)` for a list of string-to-string dicts:
the exact text Python writes. -/
def json_dumps (data : List Record) : List Char :=
  match data with
  | [] => ['[', ']']
  | d :: ds => '[' :: nl4 ++ jsonDict d ++ itemsRest ds ++ ['\n', ']']

/-- JSON inter-token whitespace. -/
def jsonWs (c : Char) : Bool := c = ' ' || c = '\t' || c = '\n' || c = '\r'

/-- Skip inter-token whitespace. -/
def skipWs (s : List Char) : List Char := s.dropWhile jsonWs

/-- Decode one hex digit (either case). -/
def decodeHexDigit (c : Char) : Option ℕ :=
  if '0' ≤ c ∧ c ≤ '9' then some (c.toNat - ('0').toNat)
  else if 'a' ≤ c ∧ c ≤ 'f' then some (c.toNat - ('a').toNat + 10)
  else if 'A' ≤ c ∧ c ≤ 'F' then some (c.toNat - ('A').toNat + 10)
  else none

/-- Decode four hex digits. -/
def hex4Val (a b c d : Char) : Option ℕ :=
  match decodeHexDigit a, decodeHexDigit b, decodeHexDigit c, decodeHexDigit d with
  | some x, some y, some z, some w => some (x * 4096 + y * 256 + z * 16 + w)
  | _, _, _, _ => none

/-- The single-character escape shortcuts of the JSON grammar. -/
def escShort (e : Char) : Option Char :=
  if e = '"' then some '"'
  else if e = '\\' then some '\\'
  else if e = '/' then some '/'
  else if e = 'b' then some '\x08'
  else if e = 'f' then some '\x0c'
  else if e = 'n' then some '\n'
  else if e = 'r' then some '\r'
  else if e = 't' then some '\t'
  else none

/-- Read four hex digits after `\u`. -/
def parseU : List Char → Option (ℕ × List Char)
  | a :: b :: c :: d :: r => (hex4Val a b c d).map (fun n => (n, r))
  | _ => none

/-- Decode one escape sequence (the backslash already consumed), including
a surrogate pair spelled as two `\uXXXX` escapes. -/
def parseEsc (s : List Char) : Option (Char × List Char) :=
  match s with
  | [] => none
  | e :: r =>
    if e = 'u' then
      match parseU r with
      | none => none
      | some (n, r2) =>
        if 0xd800 ≤ n ∧ n ≤ 0xdbff then
          match r2 with
          | '\\' :: 'u' :: r3 =>
            (match parseU r3 with
            | none => none
            | some (m, r4) =>
              if 0xdc00 ≤ m ∧ m ≤ 0xdfff then
                some (Char.ofNat (0x10000 + (n - 0xd800) * 0x400 + (m - 0xdc00)), r4)
              else none)
          | _ => none
        else if Nat.isValidChar n then some (Char.ofNat n, r2)
        else none
    else
      match escShort e with
      | some ch => some (ch, r)
      | none => none

/-- Read a JSON string body (the opening quote already consumed), decoding
escapes and surrogate pairs, rejecting raw control characters; returns the
decoded string and the rest of the input after the closing quote.  `fuel`
decreases by exactly one per decoded character; callers pass the length of
the remaining input plus one, which always suffices. -/
def parseJString : ℕ → List Char → Option (Str × List Char)
  | 0, _ => none
  | _ + 1, [] => none
  | fuel + 1, c :: rest =>
    if c = '"' then some ([], rest)
    else if c = '\\' then
      match parseEsc rest with
      | none => none
      | some (ch, r2) => (parseJString fuel r2).map (fun p => (ch :: p.1, p.2))
    else if c.toNat < 0x20 then none
    else (parseJString fuel rest).map (fun p => (c :: p.1, p.2))

/-- Read the members of an object, starting at the first key's opening
quote; `fuel` bounds the number of members. -/
def parseMembers : ℕ → List Char → Record → Option (Record × List Char)
  | 0, _, _ => none
  | fuel + 1, s, acc =>
    match s with
    | '"' :: r =>
      (match parseJString (r.length + 1) r with
      | none => none
      | some (k, r2) =>
        match skipWs r2 with
        | ':' :: r3 =>
          (match skipWs r3 with
          | '"' :: r4 =>
            (match parseJString (r4.length + 1) r4 with
            | none => none
            | some (v, r5) =>
              match skipWs r5 with
              | ',' :: r6 => parseMembers fuel (skipWs r6) (insertKV acc k v)
              | '}' :: r6 => some (insertKV acc k v, r6)
              | _ => none)
          | _ => none)
        | _ => none)
    | _ => none

/-- Read one object. -/
def parseDict (fuel : ℕ) (s : List Char) : Option (Record × List Char) :=
  match s with
  | '{' :: r =>
    (match skipWs r with
    | '}' :: r2 => some ([], r2)
    | r1 => parseMembers fuel r1 [])
  | _ => none

/-- Read the elements of the top-level array, starting at the first
object's opening brace. -/
def parseItems : ℕ → List Char → List Record → Option (List Record × List Char)
  | 0, _, _ => none
  | fuel + 1, s, acc =>
    match parseDict (fuel + 1) s with
    | none => none
    | some (r, rest) =>
      match skipWs rest with
      | ',' :: r2 => parseItems fuel (skipWs r2) (acc ++ [r])
      | ']' :: r2 => some (acc ++ [r], r2)
      | _ => none

/-- `json.load` on the artifact grammar: a whole input holding one array
of string-to-string objects and nothing else. -/
def json_loads (s : List Char) : Option (List Record) :=
  match skipWs s with
  | '[' :: r =>
    (match skipWs r with
    | ']' :: r2 => if skipWs r2 = [] then some [] else none
    | r1 =>
      match parseItems (s.length + 1) r1 [] with
      | none => none
      | some (rs, rest) => if skipWs rest = [] then some rs else none)
  | _ => none

/-- Fuel lower bound for parsing the serialized form of a record list. -/
def jsonFuel : List Record → ℕ
  | [] => 0
  | d :: ds => d.length + 2 + jsonFuel ds

/-! ### Basic association-list lemmas -/

theorem map_fst_replace (m : Record) (k v : Str) :
    (m.map (fun p => if p.1 = k then (k, v) else p)).map Prod.fst = m.map Prod.fst := by
  rw [List.map_map]
  apply List.map_congr_left
  intro p _
  by_cases hp : p.1 = k <;> simp [hp]

theorem keyMem_append {r s : Record} {k : Str} :
    keyMem (r ++ s) k ↔ keyMem r k ∨ keyMem s k := by
  simp [keyMem]

theorem keyMem_insertKV {m : Record} {k v k' : Str} :
    keyMem (insertKV m k v) k' ↔ keyMem m k' ∨ k = k' := by
  unfold insertKV
  by_cases h : keyMem m k
  · rw [if_pos h]
    unfold keyMem
    rw [map_fst_replace]
    constructor
    · exact fun hm => Or.inl hm
    · rintro (hm | rfl)
      · exact hm
      · exact h
  · rw [if_neg h]
    rw [keyMem_append]
    unfold keyMem
    simp [eq_comm]

theorem dictLookup_cons (p : Str × Str) (m : Record) (k : Str) :
    dictLookup (p :: m) k = if p.1 = k then some p.2 else dictLookup m k := by
  by_cases hp : p.1 = k <;> simp [dictLookup, List.find?_cons, hp]

theorem dictLookup_isSome_iff {m : Record} {k : Str} :
    (dictLookup m k).isSome ↔ keyMem m k := by
  simp [dictLookup, keyMem, List.find?_isSome, List.mem_map]

theorem dictLookup_eq_none_iff {m : Record} {k : Str} :
    dictLookup m k = none ↔ ¬ keyMem m k := by
  rw [← dictLookup_isSome_iff]
  cases dictLookup m k <;> simp

theorem dictLookup_append_right {r : Record} (s : Record) {k : Str}
    (h : ¬ keyMem r k) : dictLookup (r ++ s) k = dictLookup s k := by
  have hr : List.find? (fun p => p.1 = k) r = none := by
    have := dictLookup_eq_none_iff.mpr h
    simpa [dictLookup] using this
  simp [dictLookup, List.find?_append, hr]

theorem dictLookup_append_left {r : Record} (s : Record) {k : Str}
    (h : keyMem r k) : dictLookup (r ++ s) k = dictLookup r k := by
  have hr : (List.find? (fun p => p.1 = k) r).isSome := by
    have := dictLookup_isSome_iff.mpr h
    simpa [dictLookup] using this
  obtain ⟨p, hp⟩ := Option.isSome_iff_exists.mp hr
  simp [dictLookup, List.find?_append, hp]

theorem dictLookup_replace_self {k : Str} (v : Str) :
    ∀ m : Record, keyMem m k →
      dictLookup (m.map (fun p => if p.1 = k then (k, v) else p)) k = some v := by
  intro m
  induction m with
  | nil => intro h; exact absurd h (by simp [keyMem])
  | cons p t ih =>
    intro h
    rw [List.map_cons]
    by_cases hp : p.1 = k
    · rw [if_pos hp, dictLookup_cons, if_pos rfl]
    · rw [if_neg hp, dictLookup_cons, if_neg hp]
      apply ih
      have hh : k = p.1 ∨ keyMem t k := by simpa [keyMem] using h
      exact hh.resolve_left (fun he => hp he.symm)

theorem dictLookup_replace_ne {k k' : Str} (v : Str) (hne : k' ≠ k) :
    ∀ m : Record,
      dictLookup (m.map (fun p => if p.1 = k then (k, v) else p)) k' = dictLookup m k' := by
  intro m
  induction m with
  | nil => rfl
  | cons p t ih =>
    rw [List.map_cons]
    by_cases hp : p.1 = k
    · rw [if_pos hp, dictLookup_cons, dictLookup_cons]
      rw [if_neg (show ¬ ((k, v) : Str × Str).1 = k' from fun hh => hne hh.symm)]
      rw [if_neg (show ¬ p.1 = k' from by rw [hp]; exact fun hh => hne hh.symm)]
      exact ih
    · rw [if_neg hp, dictLookup_cons, dictLookup_cons]
      by_cases hpk : p.1 = k' <;> simp [hpk, ih]

theorem dictLookup_insertKV_self (m : Record) (k v : Str) :
    dictLookup (insertKV m k v) k = some v := by
  unfold insertKV
  by_cases h : keyMem m k
  · rw [if_pos h]
    exact dictLookup_replace_self v m h
  · rw [if_neg h, dictLookup_append_right _ h, dictLookup_cons, if_pos rfl]

theorem dictLookup_insertKV_ne (m : Record) {k : Str} (v : Str) {k' : Str}
    (hne : k' ≠ k) : dictLookup (insertKV m k v) k' = dictLookup m k' := by
  unfold insertKV
  by_cases h : keyMem m k
  · rw [if_pos h]
    exact dictLookup_replace_ne v hne m
  · rw [if_neg h]
    by_cases hk' : keyMem m k'
    · exact dictLookup_append_left _ hk'
    · rw [dictLookup_append_right _ hk', dictLookup_eq_none_iff.mpr hk', dictLookup_cons]
      rw [if_neg (show ¬ ((k, v) : Str × Str).1 = k' from fun hh => hne hh.symm)]
      rfl

/-! ### Characterization of the regex match -/

theorem splitFirstColon_eq_some_iff {s a b : List Char} :
    splitFirstColon s = some (a, b) ↔ s = a ++ ':' :: b ∧ ':' ∉ a := by
  induction s generalizing a b with
  | nil =>
    simp only [splitFirstColon]
    constructor
    · intro h; cases h
    · rintro ⟨h, -⟩
      exact absurd h (by simp)
  | cons c rest ih =>
    by_cases hc : c = ':'
    · subst hc
      simp only [splitFirstColon, if_pos rfl]
      constructor
      · intro h
        injection h with h'
        obtain ⟨rfl, rfl⟩ := Prod.mk.injEq .. ▸ h'
        exact ⟨rfl, by simp⟩
      · rintro ⟨heq, hna⟩
        cases a with
        | nil =>
          simp only [List.nil_append, List.cons.injEq, true_and] at heq
          subst heq
          simp
        | cons c2 a2 =>
          injection heq with h1 _
          exact absurd (h1 ▸ List.mem_cons_self c2 a2) hna
    · simp only [splitFirstColon, if_neg hc, Option.map_eq_some']
      constructor
      · rintro ⟨⟨a2, b2⟩, hsp, heq⟩
        obtain ⟨rfl, rfl⟩ := Prod.mk.injEq .. ▸ heq
        obtain ⟨hr, hna⟩ := ih.mp hsp
        refine ⟨by rw [hr]; rfl, ?_⟩
        intro hm
        rcases List.mem_cons.mp hm with h1 | h2
        · exact hc h1.symm
        · exact hna h2
      · rintro ⟨heq, hna⟩
        cases a with
        | nil =>
          exfalso
          simp only [List.nil_append, List.cons.injEq] at heq
          exact hc heq.1
        | cons c2 a2 =>
          injection heq with h1 h2
          subst h1
          refine ⟨(a2, b), ih.mpr ⟨h2, fun hm => hna (List.mem_cons_of_mem _ hm)⟩, rfl⟩

theorem splitFirstColon_eq_none_iff {s : List Char} :
    splitFirstColon s = none ↔ ':' ∉ s := by
  induction s with
  | nil => simp [splitFirstColon]
  | cons c rest ih =>
    by_cases hc : c = ':'
    · subst hc; simp [splitFirstColon]
    · simp only [splitFirstColon, if_neg hc, Option.map_eq_none']
      rw [ih]
      simp only [List.mem_cons, not_or]
      constructor
      · intro h; exact ⟨fun he => hc he.symm, h⟩
      · intro h; exact h.2

theorem lineMatch_eq_some_iff {L k v : Str} :
    lineMatch L = some (k, v) ↔
      ∃ a b, L = a ++ ':' :: b ∧ a ≠ [] ∧ ':' ∉ a.drop 1 ∧
        k = pyStrip a ∧ v = pyStrip b := by
  cases L with
  | nil =>
    simp only [lineMatch]
    constructor
    · intro h; cases h
    · rintro ⟨a, b, heq, hne, -⟩
      exact absurd (List.append_eq_nil.mp heq.symm).1 hne
  | cons c rest =>
    simp only [lineMatch, Option.map_eq_some']
    constructor
    · rintro ⟨⟨a2, b2⟩, hsp, heq⟩
      obtain ⟨rfl, rfl⟩ := Prod.mk.injEq .. ▸ heq
      obtain ⟨hr, hna⟩ := splitFirstColon_eq_some_iff.mp hsp
      exact ⟨c :: a2, b2, by rw [hr]; rfl, by simp, by simpa using hna, rfl, rfl⟩
    · rintro ⟨a, b, heq, hne, hna, rfl, rfl⟩
      cases a with
      | nil => exact absurd rfl hne
      | cons c2 a2 =>
        injection heq with h1 h2
        subst h1
        exact ⟨(a2, b), splitFirstColon_eq_some_iff.mpr ⟨h2, by simpa using hna⟩, rfl⟩

theorem lineMatch_eq_none_iff {L : Str} :
    lineMatch L = none ↔ ':' ∉ L.drop 1 := by
  cases L with
  | nil => simp [lineMatch]
  | cons c rest =>
    simp [lineMatch, Option.map_eq_none', splitFirstColon_eq_none_iff]

theorem lineMatch_ne_nil {L k v : Str} (h : lineMatch L = some (k, v)) : L ≠ [] := by
  intro hL
  rw [hL] at h
  cases h

/-! ### Keys produced by the first pass never match the regex again -/

theorem dropWhile_append_singleton {p : Char → Bool} {a : Char} (h : p a = false) :
    ∀ l : List Char, List.dropWhile p (l ++ [a]) = List.dropWhile p l ++ [a] := by
  intro l
  induction l with
  | nil => simp [List.dropWhile, h]
  | cons b t ih =>
    by_cases hb : p b <;> simp [List.dropWhile, hb, ih]

theorem pyStrip_sublist (s : Str) : (pyStrip s).Sublist s := by
  unfold pyStrip
  have h1 : (s.dropWhile pyIsSpace).Sublist s := List.dropWhile_sublist _
  have h2 : ((s.dropWhile pyIsSpace).reverse.dropWhile pyIsSpace).Sublist
      (s.dropWhile pyIsSpace).reverse := List.dropWhile_sublist _
  have h3 := h2.reverse
  rw [List.reverse_reverse] at h3
  exact h3.trans h1

theorem pyStrip_cons_not_space {c : Char} (hc : pyIsSpace c = false) (xs : List Char) :
    pyStrip (c :: xs) = c :: (xs.reverse.dropWhile pyIsSpace).reverse := by
  unfold pyStrip
  rw [List.dropWhile_cons, if_neg (by simp [hc])]
  rw [List.reverse_cons, dropWhile_append_singleton hc, List.reverse_append]
  rfl

theorem colon_notin_pyStrip_drop_one {c : Char} {xs : List Char} (h : ':' ∉ xs) :
    ':' ∉ (pyStrip (c :: xs)).drop 1 := by
  by_cases hc : pyIsSpace c
  · have hsub : (pyStrip (c :: xs)).Sublist xs := by
      have : pyStrip (c :: xs) = pyStrip xs := by
        unfold pyStrip
        rw [List.dropWhile_cons, if_pos hc]
      rw [this]
      exact pyStrip_sublist xs
    intro hm
    exact h (hsub.subset ((List.drop_sublist 1 _).subset hm))
  · rw [pyStrip_cons_not_space (by simpa using hc)]
    intro hm
    rw [List.drop_succ_cons, List.drop_zero] at hm
    rw [List.mem_reverse] at hm
    have := (List.dropWhile_sublist (l := xs.reverse) pyIsSpace).subset hm
    rw [List.mem_reverse] at this
    exact h this

theorem lineMatch_key_none {L k v : Str} (h : lineMatch L = some (k, v)) :
    lineMatch k = none := by
  obtain ⟨a, b, -, hne, hna, rfl, -⟩ := lineMatch_eq_some_iff.mp h
  cases a with
  | nil => exact absurd rfl hne
  | cons c xs =>
    rw [lineMatch_eq_none_iff]
    exact colon_notin_pyStrip_drop_one (by simpa using hna)

/-! ### How the two folds behave -/

theorem firstPass_fold_lookup (k : Str) :
    ∀ (lines : List Str) (acc : Record),
      dictLookup (lines.foldl passStep acc) k =
        match (lines.filterMap lineMatch).reverse.find? (fun p => p.1 = k) with
        | some kv => some kv.2
        | none => dictLookup acc k := by
  intro lines
  induction lines with
  | nil => intro acc; simp
  | cons L ls ih =>
    intro acc
    rw [List.foldl_cons, ih (passStep acc L)]
    cases hL : lineMatch L with
    | none => rw [List.filterMap_cons_none hL]; rw [passStep, hL]
    | some kv =>
      rw [List.filterMap_cons_some hL, List.reverse_cons, List.find?_append]
      cases hfind : (ls.filterMap lineMatch).reverse.find? (fun p => p.1 = k) with
      | some kv' => simp [hfind]
      | none =>
        simp only [hfind, Option.none_or]
        rw [passStep, hL]
        by_cases hk : kv.1 = k
        · rw [List.find?_cons, show (decide (kv.1 = k)) = true by simp [hk]]
          subst hk
          simp [dictLookup_insertKV_self]
        · rw [List.find?_cons, show (decide (kv.1 = k)) = false by simp [hk]]
          simp only [List.find?_nil]
          exact dictLookup_insertKV_ne acc kv.2 (fun h => hk h.symm)

theorem firstPass_fold_keyMem (k : Str) :
    ∀ (lines : List Str) (acc : Record),
      keyMem (lines.foldl passStep acc) k ↔
        keyMem acc k ∨ k ∈ (lines.filterMap lineMatch).map Prod.fst := by
  intro lines
  induction lines with
  | nil => intro acc; simp
  | cons L ls ih =>
    intro acc
    rw [List.foldl_cons, ih (passStep acc L)]
    cases hL : lineMatch L with
    | none => rw [List.filterMap_cons_none hL, passStep, hL]
    | some kv =>
      rw [List.filterMap_cons_some hL, passStep, hL]
      rw [List.map_cons, List.mem_cons, keyMem_insertKV]
      constructor
      · rintro ((h | h) | h)
        · exact Or.inl h
        · exact Or.inr (Or.inl h.symm)
        · exact Or.inr (Or.inr h)
      · rintro (h | h | h)
        · exact Or.inl (Or.inl h)
        · exact Or.inl (Or.inr h.symm)
        · exact Or.inr h

theorem secondPass_fold_keyMem_pres {k : Str} :
    ∀ (lines : List Str) (r : Record), keyMem r k →
      keyMem (lines.foldl secondStep r) k := by
  intro lines
  induction lines with
  | nil => intro r h; exact h
  | cons L ls ih =>
    intro r h
    rw [List.foldl_cons]
    apply ih
    unfold secondStep
    split
    · exact keyMem_append.mpr (Or.inl h)
    · exact h

theorem secondPass_fold_lookup_pres {k : Str} :
    ∀ (lines : List Str) (r : Record), keyMem r k →
      dictLookup (lines.foldl secondStep r) k = dictLookup r k := by
  intro lines
  induction lines with
  | nil => intro r _; rfl
  | cons L ls ih =>
    intro r h
    rw [List.foldl_cons]
    by_cases hcond : L ≠ [] ∧ ¬ keyMem r L
    · rw [show secondStep r L = r ++ [(L, [])] from if_pos hcond]
      rw [ih _ (keyMem_append.mpr (Or.inl h))]
      exact dictLookup_append_left _ h
    · rw [show secondStep r L = r from if_neg hcond]
      exact ih r h

theorem secondPass_fold_adds {L : Str} (hL : L ≠ []) :
    ∀ (lines : List Str) (r : Record), L ∈ lines → ¬ keyMem r L →
      dictLookup (lines.foldl secondStep r) L = some [] := by
  intro lines
  induction lines with
  | nil => intro r h; cases h
  | cons L2 ls ih =>
    intro r hmem hnk
    rw [List.foldl_cons]
    by_cases hL2 : L2 = L
    · subst hL2
      rw [show secondStep r L2 = r ++ [(L2, [])] from if_pos ⟨hL, hnk⟩]
      have hk : keyMem (r ++ [(L2, [])]) L2 := keyMem_append.mpr (Or.inr (by simp [keyMem]))
      rw [secondPass_fold_lookup_pres ls _ hk]
      rw [dictLookup_append_right _ hnk, dictLookup_cons, if_pos rfl]
    · have hmem' : L ∈ ls := (List.mem_cons.mp hmem).resolve_left (fun h => hL2 h.symm)
      by_cases hcond : L2 ≠ [] ∧ ¬ keyMem r L2
      · rw [show secondStep r L2 = r ++ [(L2, [])] from if_pos hcond]
        apply ih _ hmem'
        intro hk
        rcases keyMem_append.mp hk with h | h
        · exact hnk h
        · exact hL2 (show L = L2 by simpa [keyMem] using h).symm
      · rw [show secondStep r L2 = r from if_neg hcond]
        exact ih r hmem' hnk

theorem secondPass_fold_keys_sub {k : Str} :
    ∀ (lines : List Str) (r : Record),
      keyMem (lines.foldl secondStep r) k → keyMem r k ∨ (k ∈ lines ∧ k ≠ []) := by
  intro lines
  induction lines with
  | nil => intro r h; exact Or.inl h
  | cons L ls ih =>
    intro r h
    rw [List.foldl_cons] at h
    rcases ih (secondStep r L) h with h1 | h1
    · unfold secondStep at h1
      split at h1
      · rcases keyMem_append.mp h1 with h2 | h2
        · exact Or.inl h2
        · rename_i hcond
          have hkL : k = L := by simpa [keyMem] using h2
          refine Or.inr ⟨?_, ?_⟩
          · rw [hkL]; exact List.mem_cons_self L ls
          · rw [hkL]; exact hcond.1
      · exact Or.inl h1
    · exact Or.inr ⟨List.mem_cons_of_mem _ h1.1, h1.2⟩

/-! ### The two passes on texts made only of well-formed lines -/

theorem firstPass_fold_append :
    ∀ (lines : List Str) (acc : Record),
      (∀ k ∈ (lines.filterMap lineMatch).map Prod.fst, ¬ keyMem acc k) →
      ((lines.filterMap lineMatch).map Prod.fst).Nodup →
      lines.foldl passStep acc = acc ++ lines.filterMap lineMatch := by
  intro lines
  induction lines with
  | nil => intro acc _ _; simp
  | cons L ls ih =>
    intro acc hdisj hnd
    rw [List.foldl_cons]
    cases hL : lineMatch L with
    | none =>
      rw [List.filterMap_cons_none hL] at hdisj hnd ⊢
      rw [show passStep acc L = acc by rw [passStep, hL]]
      exact ih acc hdisj hnd
    | some kv =>
      rw [List.filterMap_cons_some hL] at hdisj hnd ⊢
      rw [show passStep acc L = insertKV acc kv.1 kv.2 by rw [passStep, hL]]
      rw [List.map_cons, List.nodup_cons] at hnd
      have hnk : ¬ keyMem acc kv.1 :=
        hdisj kv.1 (by rw [List.map_cons]; exact List.mem_cons_self _ _)
      rw [show insertKV acc kv.1 kv.2 = acc ++ [(kv.1, kv.2)] from if_neg hnk]
      rw [ih (acc ++ [(kv.1, kv.2)]) ?_ hnd.2]
      · simp
      · intro k hk
        intro hmem
        rcases keyMem_append.mp hmem with h | h
        · exact hdisj k (by rw [List.map_cons]; exact List.mem_cons_of_mem _ hk) h
        · have : k = kv.1 := by simpa [keyMem] using h
          exact hnd.1 (this ▸ hk)

theorem lines_nodup_of_matches :
    ∀ lines : List Str, (∀ L ∈ lines, (lineMatch L).isSome) →
      ((lines.filterMap lineMatch).map Prod.fst).Nodup → lines.Nodup := by
  intro lines
  induction lines with
  | nil => intro _ _; exact List.nodup_nil
  | cons L ls ih =>
    intro h1 hnd
    obtain ⟨kv, hL⟩ := Option.isSome_iff_exists.mp (h1 L (List.mem_cons_self _ _))
    rw [List.filterMap_cons_some hL, List.map_cons, List.nodup_cons] at hnd
    refine List.Nodup.cons ?_ (ih (fun L' hL' => h1 L' (List.mem_cons_of_mem _ hL')) hnd.2)
    intro hmem
    apply hnd.1
    rw [List.mem_map]
    exact ⟨kv, List.mem_filterMap.mpr ⟨L, hmem, hL⟩, rfl⟩

theorem secondPass_fold_append_all :
    ∀ (lines2 : List Str) (r : Record),
      (∀ L ∈ lines2, L ≠ [] ∧ ¬ keyMem r L) → lines2.Nodup →
      lines2.foldl secondStep r = r ++ lines2.map (fun L => (L, [])) := by
  intro lines2
  induction lines2 with
  | nil => intro r _ _; simp
  | cons L ls ih =>
    intro r hcond hnd
    rw [List.foldl_cons]
    obtain ⟨hne, hnk⟩ := hcond L (List.mem_cons_self _ _)
    rw [show secondStep r L = r ++ [(L, [])] from if_pos ⟨hne, hnk⟩]
    rw [List.nodup_cons] at hnd
    rw [ih (r ++ [(L, [])]) ?_ hnd.2]
    · simp
    · intro L' hL'
      refine ⟨(hcond L' (List.mem_cons_of_mem _ hL')).1, ?_⟩
      intro hmem
      rcases keyMem_append.mp hmem with h | h
      · exact (hcond L' (List.mem_cons_of_mem _ hL')).2 h
      · have : L' = L := by simpa [keyMem] using h
        exact hnd.1 (this ▸ hL')

/-! ### Claim theorems for the extractor -/

/-- C10: there is an input text — here a line whose first colon is preceded
only by whitespace — for which `extract` returns a record containing the
empty string as a key, so keys of the returned record are not guaranteed to
be non-empty. -/
theorem extract_can_produce_empty_key :
    ∃ text : Str,
      keyMem (extract_information text) [] ∧
        dictLookup (extract_information text) [] = some (('v' : Char) :: ('a' : Char) :: ('l' : Char) :: ('u' : Char) :: ('e' : Char) :: []) := by
  refine ⟨(" : value").data, ?_, ?_⟩ <;> decide

/-- C5 counterexample: the second pass checks `if line`, which does not
trim, so the whitespace-only line `" "` IS inserted as a key by the second
pass even though it is empty after trimming — contradicting the claim that a
whitespace-only line is never inserted. -/
theorem second_pass_whitespace_line_counterexample :
    extract_information ((" ").data) = [(((" ").data), [])] ∧
      pyStrip ((" ").data) = [] := by
  constructor <;> decide

/-- C5 (amended): the second pass inserts a line as a key with empty value
iff the line is non-empty as a raw, untrimmed string and its exact text is
not already a key; whitespace-only lines are inserted like any others. -/
theorem second_pass_inserts_raw_nonempty_lines (text L : Str) :
    (L ∈ pySplitlines text → L ≠ [] →
        ¬ keyMem (firstPass (pySplitlines text)) L →
        dictLookup (extract_information text) L = some []) ∧
    (keyMem (extract_information text) L →
        keyMem (firstPass (pySplitlines text)) L ∨
          (L ∈ pySplitlines text ∧ L ≠ [])) := by
  constructor
  · intro hmem hne hnk
    exact secondPass_fold_adds hne (pySplitlines text) (firstPass (pySplitlines text)) hmem hnk
  · intro h
    exact secondPass_fold_keys_sub (pySplitlines text) (firstPass (pySplitlines text)) h

/-- Witness for the amended C5 theorem at the whitespace-only input. -/
theorem second_pass_inserts_raw_nonempty_lines_witness :
    dictLookup (extract_information ((" ").data)) ((" ").data) = some [] :=
  (second_pass_inserts_raw_nonempty_lines ((" ").data) ((" ").data)).1
    (by decide) (by decide) (by decide)

/-- C3 counterexample: the line `":v"` contains a colon, but the regex
`(.+?):` needs at least one character before the colon, so the line is not
split at its first colon (no entry with the empty key appears); instead the
whole line is saved by the second pass. -/
theorem colon_line_not_split_counterexample :
    (':' : Char) ∈ ((":v").data) ∧
      extract_information ((":v").data) = [(((":v").data), [])] ∧
      dictLookup (extract_information ((":v").data)) [] = none := by
  refine ⟨?_, ?_, ?_⟩ <;> decide

/-- C3 (amended): for every line that contains a colon with at least one
character in front of it, the regex pass splits the line at the first such
colon, trims both sides, and assigns `key -> value`; when several lines
produce the same key, the record holds the value of the LAST such line.
The first conjunct states last-write-wins for the returned record, the
second states the split-and-trim characterization of a regex match. -/
theorem extract_last_write_wins (text k : Str)
    (hk : k ∈ ((pySplitlines text).filterMap lineMatch).map Prod.fst) :
    dictLookup (extract_information text) k =
      ((((pySplitlines text).filterMap lineMatch).reverse.find?
          (fun p => p.1 = k)).map (fun p => p.2)) ∧
    (∀ L kk v : Str, lineMatch L = some (kk, v) ↔
      ∃ a b, L = a ++ ':' :: b ∧ a ≠ [] ∧ ':' ∉ a.drop 1 ∧
        kk = pyStrip a ∧ v = pyStrip b) := by
  constructor
  · have hmem : keyMem (firstPass (pySplitlines text)) k := by
      rw [firstPass, firstPass_fold_keyMem]
      exact Or.inr hk
    rw [extract_information, secondPass]
    rw [secondPass_fold_lookup_pres (pySplitlines text) _ hmem]
    rw [firstPass, firstPass_fold_lookup]
    have hfind : (((pySplitlines text).filterMap lineMatch).reverse.find?
        (fun p => p.1 = k)).isSome := by
      rw [List.find?_isSome]
      obtain ⟨p, hp, hpk⟩ := List.mem_map.mp hk
      exact ⟨p, by rw [List.mem_reverse]; exact hp, by simp [hpk]⟩
    obtain ⟨kv, hkv⟩ := Option.isSome_iff_exists.mp hfind
    rw [hkv]
    rfl
  · intro L kk v
    exact lineMatch_eq_some_iff

/-- Witness for the amended C3 theorem: the duplicate key `"a"` ends up
with the value of the later line. -/
theorem extract_last_write_wins_witness :
    dictLookup (extract_information (("a: b\na: c").data)) (("a").data) =
      ((((pySplitlines (("a: b\na: c").data)).filterMap lineMatch).reverse.find?
          (fun p => p.1 = ("a").data)).map (fun p => p.2)) :=
  (extract_last_write_wins (("a: b\na: c").data) (("a").data) (by decide)).1

/-- C1 counterexample: on the spec's own example the code returns FOUR
entries, not two — the second pass adds each full line as an extra key with
empty value — so `extract` does not return "exactly one entry per line". -/
theorem extract_two_lines_counterexample :
    extract_information (("Name: Dell\nPrice: 500").data) =
      [((("Name").data), (("Dell").data)), ((("Price").data), (("500").data)),
        ((("Name: Dell").data), []), ((("Price: 500").data), [])] ∧
      (extract_information (("Name: Dell\nPrice: 500").data)).length ≠ 2 := by
  constructor <;> decide

/-- C1 (amended): for texts all of whose lines match the key-value pattern,
with pairwise-distinct keys, `extract` returns one entry per line with the
trimmed key and value — followed by one extra entry per line mapping the
full line text to the empty string (added by the second fallback pass). -/
theorem extract_wellformed_lines (text : Str)
    (h1 : ∀ L ∈ pySplitlines text, (lineMatch L).isSome)
    (h2 : (((pySplitlines text).filterMap lineMatch).map Prod.fst).Nodup) :
    extract_information text =
      ((pySplitlines text).filterMap lineMatch) ++
        ((pySplitlines text).map (fun L => (L, []))) := by
  have hfp : firstPass (pySplitlines text) = (pySplitlines text).filterMap lineMatch := by
    rw [firstPass, firstPass_fold_append (pySplitlines text) [] ?_ h2]
    · rfl
    · intro k _ hk
      simp [keyMem] at hk
  rw [extract_information, secondPass, hfp]
  apply secondPass_fold_append_all (pySplitlines text) _ ?_ (lines_nodup_of_matches _ h1 h2)
  intro L hL
  obtain ⟨kv, hkv⟩ := Option.isSome_iff_exists.mp (h1 L hL)
  refine ⟨lineMatch_ne_nil hkv, ?_⟩
  intro hmem
  obtain ⟨p, hp, hpL⟩ := List.mem_map.mp hmem
  obtain ⟨L0, _, hL0⟩ := List.mem_filterMap.mp hp
  have hnone : lineMatch p.1 = none := lineMatch_key_none hL0
  rw [hpL] at hnone
  rw [hnone] at hkv
  cases hkv

/-- Witness for the amended C1 theorem at the spec's example input. -/
theorem extract_wellformed_lines_witness :
    extract_information (("Name: Dell\nPrice: 500").data) =
      ((pySplitlines (("Name: Dell\nPrice: 500").data)).filterMap lineMatch) ++
        ((pySplitlines (("Name: Dell\nPrice: 500").data)).map (fun L => (L, []))) :=
  extract_wellformed_lines (("Name: Dell\nPrice: 500").data) (by decide) (by decide)

/-! ### Embedding vector arithmetic -/

theorem sqNormQ_nonneg (v : List ℤ) : 0 ≤ sqNormQ v := by
  unfold sqNormQ
  apply List.sum_nonneg
  intro x hx
  obtain ⟨y, -, rfl⟩ := List.mem_map.mp hx
  exact mul_self_nonneg y

theorem adjNormSq_pos (v : List ℤ) : 0 < adjNormSq v := by
  unfold adjNormSq
  split
  · exact one_pos
  · rename_i h
    exact lt_of_le_of_ne (sqNormQ_nonneg v) (Ne.symm h)

theorem sqNormQ_cons (a : ℤ) (t : List ℤ) : sqNormQ (a :: t) = a * a + sqNormQ t := by
  simp [sqNormQ]

theorem dotQ_cons (a b : ℤ) (t s : List ℤ) :
    dotQ (a :: t) (b :: s) = a * b + dotQ t s := by
  simp [dotQ]

theorem dotQ_self (q : List ℤ) : dotQ q q = sqNormQ q := by
  induction q with
  | nil => rfl
  | cons a t ih => rw [dotQ_cons, sqNormQ_cons, ih]

theorem dotQ_comm (u : List ℤ) : ∀ v : List ℤ, dotQ u v = dotQ v u := by
  induction u with
  | nil => intro v; cases v <;> rfl
  | cons a t ih =>
    intro v
    cases v with
    | nil => rfl
    | cons b s => rw [dotQ_cons, dotQ_cons, ih s, mul_comm]

theorem dotQ_eq_zero_left {q : List ℤ} (h : sqNormQ q = 0) :
    ∀ v : List ℤ, dotQ q v = 0 := by
  induction q with
  | nil => intro v; cases v <;> rfl
  | cons a t ih =>
    intro v
    rw [sqNormQ_cons] at h
    have h1 : a * a = 0 := by
      nlinarith [mul_self_nonneg a, sqNormQ_nonneg t]
    have h2 : sqNormQ t = 0 := by
      nlinarith [mul_self_nonneg a, sqNormQ_nonneg t]
    cases v with
    | nil => rfl
    | cons b s =>
      rw [dotQ_cons, ih h2 s, mul_self_eq_zero.mp h1]
      ring

theorem dotQ_sq_le (q : List ℤ) :
    ∀ v : List ℤ, dotQ q v * dotQ q v ≤ sqNormQ q * sqNormQ v := by
  induction q with
  | nil =>
    intro v
    have : dotQ [] v = 0 := by cases v <;> rfl
    rw [this, show sqNormQ [] = 0 from rfl]
    simp
  | cons a t ih =>
    intro v
    cases v with
    | nil =>
      have : dotQ (a :: t) [] = 0 := rfl
      rw [this, show sqNormQ [] = 0 from rfl]
      simp
    | cons b s =>
      have IH := ih s
      have h1 : 0 ≤ sqNormQ t := sqNormQ_nonneg t
      have h2 : 0 ≤ sqNormQ s := sqNormQ_nonneg s
      rw [dotQ_cons, sqNormQ_cons, sqNormQ_cons]
      set d := dotQ t s with hd
      set St := sqNormQ t with hSt
      set Ss := sqNormQ s with hSs
      have habs1 : 2 * (a * b * d) ≤ 2 * (|a * b| * |d|) := by
        have hle : a * b * d ≤ |a * b * d| := le_abs_self _
        rw [abs_mul] at hle
        linarith
      have h7 : (2 * (|a * b| * |d|)) * (2 * (|a * b| * |d|)) ≤
          (a * a * Ss + b * b * St) * (a * a * Ss + b * b * St) := by
        have habd : |a * b| * |a * b| = (a * b) * (a * b) := abs_mul_abs_self _
        have hdd : |d| * |d| = d * d := abs_mul_abs_self _
        nlinarith [sq_nonneg (a * a * Ss - b * b * St), IH,
          mul_nonneg (mul_self_nonneg (a * b)) (sub_nonneg.mpr IH),
          mul_self_nonneg (a * b)]
      have h8 : 0 ≤ 2 * (|a * b| * |d|) := by positivity
      have h9 : 0 ≤ a * a * Ss + b * b * St := by
        have := mul_self_nonneg a
        have := mul_self_nonneg b
        nlinarith
      have key : 2 * (|a * b| * |d|) ≤ a * a * Ss + b * b * St :=
        (mul_self_le_mul_self_iff h8 h9).mpr h7
      nlinarith [IH, le_trans habs1 key]

/-! ### The exact comparison agrees with the real cosine -/

theorem rsqrt_pos {x : ℤ} (hx : 0 < x) : 0 < Real.sqrt ((x : ℤ) : ℝ) :=
  Real.sqrt_pos.mpr (by exact_mod_cast hx)

theorem mul_sqrt_le_mul_sqrt_iff {x y : ℝ} {s t : ℤ} (hs : 0 < s) (ht : 0 < t)
    (hx : 0 ≤ x) (hy : 0 ≤ y) :
    y * Real.sqrt ((s : ℤ) : ℝ) ≤ x * Real.sqrt ((t : ℤ) : ℝ) ↔
      y * y * ((s : ℤ) : ℝ) ≤ x * x * ((t : ℤ) : ℝ) := by
  have hs' : (0:ℝ) ≤ ((s : ℤ) : ℝ) := by exact_mod_cast hs.le
  have ht' : (0:ℝ) ≤ ((t : ℤ) : ℝ) := by exact_mod_cast ht.le
  have h1 : 0 ≤ y * Real.sqrt ((s : ℤ) : ℝ) := mul_nonneg hy (Real.sqrt_nonneg _)
  have h2 : 0 ≤ x * Real.sqrt ((t : ℤ) : ℝ) := mul_nonneg hx (Real.sqrt_nonneg _)
  rw [mul_self_le_mul_self_iff h1 h2]
  have e1 : (y * Real.sqrt ((s : ℤ) : ℝ)) * (y * Real.sqrt ((s : ℤ) : ℝ)) =
      y * y * ((s : ℤ) : ℝ) := by
    rw [show (y * Real.sqrt ((s : ℤ) : ℝ)) * (y * Real.sqrt ((s : ℤ) : ℝ)) =
        y * y * (Real.sqrt ((s : ℤ) : ℝ) * Real.sqrt ((s : ℤ) : ℝ)) from by ring,
      Real.mul_self_sqrt hs']
  have e2 : (x * Real.sqrt ((t : ℤ) : ℝ)) * (x * Real.sqrt ((t : ℤ) : ℝ)) =
      x * x * ((t : ℤ) : ℝ) := by
    rw [show (x * Real.sqrt ((t : ℤ) : ℝ)) * (x * Real.sqrt ((t : ℤ) : ℝ)) =
        x * x * (Real.sqrt ((t : ℤ) : ℝ) * Real.sqrt ((t : ℤ) : ℝ)) from by ring,
      Real.mul_self_sqrt ht']
  rw [e1, e2]

theorem cosGeB_iff (q u v : List ℤ) :
    cosGeB q u v = true ↔ simVal q v ≤ simVal q u := by
  have hAq := adjNormSq_pos q
  have hAu := adjNormSq_pos u
  have hAv := adjNormSq_pos v
  have hq := rsqrt_pos hAq
  have hu := rsqrt_pos hAu
  have hv := rsqrt_pos hAv
  have key : simVal q v ≤ simVal q u ↔
      ((dotQ q v : ℤ) : ℝ) * Real.sqrt ((adjNormSq u : ℤ) : ℝ) ≤
        ((dotQ q u : ℤ) : ℝ) * Real.sqrt ((adjNormSq v : ℤ) : ℝ) := by
    unfold simVal
    rw [div_le_div_iff₀ (mul_pos hq hv) (mul_pos hq hu)]
    rw [show ((dotQ q v : ℤ) : ℝ) * (Real.sqrt ((adjNormSq q : ℤ) : ℝ) * Real.sqrt ((adjNormSq u : ℤ) : ℝ)) =
        Real.sqrt ((adjNormSq q : ℤ) : ℝ) * (((dotQ q v : ℤ) : ℝ) * Real.sqrt ((adjNormSq u : ℤ) : ℝ)) from by ring]
    rw [show ((dotQ q u : ℤ) : ℝ) * (Real.sqrt ((adjNormSq q : ℤ) : ℝ) * Real.sqrt ((adjNormSq v : ℤ) : ℝ)) =
        Real.sqrt ((adjNormSq q : ℤ) : ℝ) * (((dotQ q u : ℤ) : ℝ) * Real.sqrt ((adjNormSq v : ℤ) : ℝ)) from by ring]
    rw [mul_le_mul_left hq]
  rw [key]
  unfold cosGeB
  by_cases hx : (0:ℤ) ≤ dotQ q u
  · by_cases hy : (0:ℤ) < dotQ q v
    · rw [if_pos hx, if_pos hy]
      simp only [decide_eq_true_eq]
      rw [mul_sqrt_le_mul_sqrt_iff hAu hAv (by exact_mod_cast hx) (by exact_mod_cast hy.le)]
      constructor
      · intro h; exact_mod_cast h
      · intro h; exact_mod_cast h
    · rw [if_pos hx, if_neg hy]
      apply iff_of_true rfl
      have hy' : ((dotQ q v : ℤ) : ℝ) ≤ 0 := by exact_mod_cast not_lt.mp hy
      have hx' : (0:ℝ) ≤ ((dotQ q u : ℤ) : ℝ) := by exact_mod_cast hx
      calc ((dotQ q v : ℤ) : ℝ) * Real.sqrt ((adjNormSq u : ℤ) : ℝ) ≤ 0 :=
            mul_nonpos_of_nonpos_of_nonneg hy' (Real.sqrt_nonneg _)
        _ ≤ ((dotQ q u : ℤ) : ℝ) * Real.sqrt ((adjNormSq v : ℤ) : ℝ) :=
            mul_nonneg hx' (Real.sqrt_nonneg _)
  · by_cases hy : (0:ℤ) < dotQ q v
    · rw [if_neg hx, if_pos hy]
      apply iff_of_false (by simp)
      rw [not_le]
      have hx' : ((dotQ q u : ℤ) : ℝ) < 0 := by exact_mod_cast not_le.mp hx
      have hy' : (0:ℝ) < ((dotQ q v : ℤ) : ℝ) := by exact_mod_cast hy
      calc ((dotQ q u : ℤ) : ℝ) * Real.sqrt ((adjNormSq v : ℤ) : ℝ) < 0 :=
            mul_neg_of_neg_of_pos hx' hv
        _ < ((dotQ q v : ℤ) : ℝ) * Real.sqrt ((adjNormSq u : ℤ) : ℝ) :=
            mul_pos hy' hu
    · rw [if_neg hx, if_neg hy]
      simp only [decide_eq_true_eq]
      have hx' : ((dotQ q u : ℤ) : ℝ) < 0 := by exact_mod_cast not_le.mp hx
      have hy' : ((dotQ q v : ℤ) : ℝ) ≤ 0 := by exact_mod_cast not_lt.mp hy
      have hneg : ((dotQ q v : ℤ) : ℝ) * Real.sqrt ((adjNormSq u : ℤ) : ℝ) ≤
            ((dotQ q u : ℤ) : ℝ) * Real.sqrt ((adjNormSq v : ℤ) : ℝ) ↔
          (-((dotQ q u : ℤ) : ℝ)) * Real.sqrt ((adjNormSq v : ℤ) : ℝ) ≤
            (-((dotQ q v : ℤ) : ℝ)) * Real.sqrt ((adjNormSq u : ℤ) : ℝ) := by
        constructor <;> intro h <;> nlinarith [h]
      rw [hneg]
      rw [mul_sqrt_le_mul_sqrt_iff hAv hAu (by linarith) (by linarith)]
      constructor
      · intro h
        have h' : ((dotQ q u : ℤ) : ℝ) * ((dotQ q u : ℤ) : ℝ) * ((adjNormSq v : ℤ) : ℝ) ≤
            ((dotQ q v : ℤ) : ℝ) * ((dotQ q v : ℤ) : ℝ) * ((adjNormSq u : ℤ) : ℝ) := by
          exact_mod_cast h
        nlinarith [h']
      · intro h
        have h' : (-((dotQ q u : ℤ) : ℝ)) * (-((dotQ q u : ℤ) : ℝ)) * ((adjNormSq v : ℤ) : ℝ) ≤
            (-((dotQ q v : ℤ) : ℝ)) * (-((dotQ q v : ℤ) : ℝ)) * ((adjNormSq u : ℤ) : ℝ) := h
        have h'' : ((dotQ q u : ℤ) : ℝ) * ((dotQ q u : ℤ) : ℝ) * ((adjNormSq v : ℤ) : ℝ) ≤
            ((dotQ q v : ℤ) : ℝ) * ((dotQ q v : ℤ) : ℝ) * ((adjNormSq u : ℤ) : ℝ) := by
          nlinarith [h']
        exact_mod_cast h''

/-! ### The ranking order -/

theorem cosGeB_self (q v : List ℤ) : cosGeB q q v = true := by
  unfold cosGeB
  have hx : (0:ℤ) ≤ dotQ q q := by rw [dotQ_self]; exact sqNormQ_nonneg q
  rw [if_pos hx]
  by_cases hy : (0:ℤ) < dotQ q v
  · rw [if_pos hy]
    simp only [decide_eq_true_eq]
    by_cases hq0 : sqNormQ q = 0
    · exact absurd (dotQ_eq_zero_left hq0 v) (ne_of_gt hy)
    · have hAq : adjNormSq q = sqNormQ q := if_neg hq0
      by_cases hv0 : sqNormQ v = 0
      · have h0 : dotQ v q = 0 := dotQ_eq_zero_left hv0 q
        rw [dotQ_comm q v] at hy
        exact absurd h0 (ne_of_gt hy)
      · have hAv : adjNormSq v = sqNormQ v := if_neg hv0
        rw [dotQ_self, hAq, hAv]
        have hcs := dotQ_sq_le q v
        have hq_pos : 0 < sqNormQ q :=
          lt_of_le_of_ne (sqNormQ_nonneg q) (Ne.symm hq0)
        nlinarith [mul_le_mul_of_nonneg_left hcs hq_pos.le]
  · rw [if_neg hy]

theorem cosGeB_total (q u v : List ℤ) :
    cosGeB q u v = true ∨ cosGeB q v u = true := by
  rcases le_total (simVal q v) (simVal q u) with h | h
  · exact Or.inl ((cosGeB_iff q u v).mpr h)
  · exact Or.inr ((cosGeB_iff q v u).mpr h)

theorem rankLe_total (q : List ℤ) :
    ∀ a b : ℕ × List ℤ, rankLe q a b ∨ rankLe q b a := by
  intro a b
  by_cases hab : cosGeB q a.2 b.2 = true <;> by_cases hba : cosGeB q b.2 a.2 = true
  · rcases Nat.le_total a.1 b.1 with h | h
    · exact Or.inl ⟨hab, fun _ => h⟩
    · exact Or.inr ⟨hba, fun _ => h⟩
  · exact Or.inl ⟨hab, fun h => absurd h hba⟩
  · exact Or.inr ⟨hba, fun h => absurd h hab⟩
  · rcases cosGeB_total q a.2 b.2 with h | h
    · exact absurd h hab
    · exact absurd h hba

theorem rankLe_trans (q : List ℤ) :
    ∀ a b c : ℕ × List ℤ, rankLe q a b → rankLe q b c → rankLe q a c := by
  intro a b c hab hbc
  have sab := (cosGeB_iff q a.2 b.2).mp hab.1
  have sbc := (cosGeB_iff q b.2 c.2).mp hbc.1
  refine ⟨(cosGeB_iff q a.2 c.2).mpr (le_trans sbc sab), ?_⟩
  intro hca
  have sca := (cosGeB_iff q c.2 a.2).mp hca
  have h1 : a.1 ≤ b.1 := hab.2 ((cosGeB_iff q b.2 a.2).mpr (le_trans sca sbc))
  have h2 : b.1 ≤ c.1 := hbc.2 ((cosGeB_iff q c.2 b.2).mpr (le_trans sab sca))
  exact le_trans h1 h2

theorem rankLe_strict {q : List ℤ} {a b : ℕ × List ℤ}
    (h : rankLe q a b) (hne : a.1 ≠ b.1) :
    simVal q b.2 < simVal q a.2 ∨
      (simVal q a.2 = simVal q b.2 ∧ a.1 < b.1) := by
  have hba := (cosGeB_iff q a.2 b.2).mp h.1
  rcases lt_or_eq_of_le hba with hlt | heq
  · exact Or.inl hlt
  · refine Or.inr ⟨heq.symm, ?_⟩
    have hgb : cosGeB q b.2 a.2 = true :=
      (cosGeB_iff q b.2 a.2).mpr (le_of_eq heq.symm)
    exact lt_of_le_of_ne (h.2 hgb) hne

theorem insertionSort_head_min {q : List ℤ} {l : List (ℕ × List ℤ)}
    {x : ℕ × List ℤ} (hx : x ∈ l)
    (hmin : ∀ y ∈ l, y ≠ x → rankLe q x y ∧ ¬ rankLe q y x) :
    (List.insertionSort (rankLe q) l).head? = some x := by
  have hperm := List.perm_insertionSort (rankLe q) l
  have hsorted := @List.sorted_insertionSort _ (rankLe q) _
      ⟨rankLe_total q⟩ ⟨rankLe_trans q⟩ l
  cases hs : List.insertionSort (rankLe q) l with
  | nil =>
    exfalso
    have : x ∈ List.insertionSort (rankLe q) l := hperm.mem_iff.mpr hx
    rw [hs] at this
    cases this
  | cons a t =>
    by_cases hax : a = x
    · rw [hax]; rfl
    · exfalso
      have hxmem : x ∈ a :: t := by
        rw [← hs]
        exact hperm.mem_iff.mpr hx
      rcases List.mem_cons.mp hxmem with h1 | h1
      · exact hax h1.symm
      · rw [hs] at hsorted
        have hax2 : rankLe q a x := (List.sorted_cons.mp hsorted).1 x h1
        have hamem : a ∈ l := hperm.subset (by rw [hs]; exact List.mem_cons_self a t)
        exact (hmin a hamem hax).2 hax2

/-! ### The state reached by `add_documents` -/

theorem dictInsertN_fresh {α : Type} {d : List (ℕ × α)} {k : ℕ}
    (h : ¬ keyMemN d k) (v : α) : dictInsertN d k v = d ++ [(k, v)] :=
  if_neg h

theorem add_documents_go (encode : Str → List ℤ) :
    ∀ (l : List Record) (n : ℕ) (emb : List (ℕ × List ℤ))
      (docsAcc : List (ℕ × Record)),
      (∀ p ∈ emb, p.1 < n) → (∀ p ∈ docsAcc, p.1 < n) →
      (List.enumFrom n l).foldl addStep ⟨encode, emb, docsAcc⟩ =
        ⟨encode, emb ++ (List.enumFrom n l).map (fun p => (p.1, encode (reprText p.2))),
          docsAcc ++ List.enumFrom n l⟩ := by
  intro l
  induction l with
  | nil => intro n emb docsAcc _ _; simp [List.enumFrom]
  | cons d rest ih =>
    intro n emb docsAcc hemb hdocs
    rw [List.enumFrom_cons, List.foldl_cons]
    have hfresh1 : ¬ keyMemN emb n := by
      intro hmem
      obtain ⟨p, hp, hpn⟩ := List.mem_map.mp hmem
      exact absurd (hpn ▸ hemb p hp) (lt_irrefl n)
    have hfresh2 : ¬ keyMemN docsAcc n := by
      intro hmem
      obtain ⟨p, hp, hpn⟩ := List.mem_map.mp hmem
      exact absurd (hpn ▸ hdocs p hp) (lt_irrefl n)
    have hstep : addStep ⟨encode, emb, docsAcc⟩ (n, d) =
        ⟨encode, emb ++ [(n, encode (reprText d))], docsAcc ++ [(n, d)]⟩ := by
      unfold addStep
      simp only []
      rw [dictInsertN_fresh hfresh1, dictInsertN_fresh hfresh2]
    rw [hstep]
    rw [ih (n + 1) _ _ ?_ ?_]
    · simp [List.append_assoc]
    · intro p hp
      rcases List.mem_append.mp hp with h1 | h1
      · exact Nat.lt_succ_of_lt (hemb p h1)
      · simp only [List.mem_singleton] at h1
        rw [h1]
        exact Nat.lt_succ_self n
    · intro p hp
      rcases List.mem_append.mp hp with h1 | h1
      · exact Nat.lt_succ_of_lt (hdocs p h1)
      · simp only [List.mem_singleton] at h1
        rw [h1]
        exact Nat.lt_succ_self n

theorem add_documents_state (encode : Str → List ℤ) (docs : List Record) :
    add_documents (ragInit encode) docs =
      ⟨encode, docs.enum.map (fun p => (p.1, encode (reprText p.2))), docs.enum⟩ := by
  unfold add_documents ragInit
  have h := add_documents_go encode docs 0 [] [] (by simp) (by simp)
  rw [show docs.enum = List.enumFrom 0 docs from rfl]
  simpa using h

theorem dictGetN_enumFrom {α : Type} (dflt : α) :
    ∀ (l : List α) (n k : ℕ),
      dictGetN (List.enumFrom n l) k dflt =
        if n ≤ k then l.getD (k - n) dflt else dflt := by
  intro l
  induction l with
  | nil =>
    intro n k
    simp [dictGetN, List.enumFrom, List.getD]
  | cons a t ih =>
    intro n k
    rw [List.enumFrom_cons]
    by_cases hnk : n = k
    · subst hnk
      simp [dictGetN, List.find?_cons]
    · unfold dictGetN
      rw [List.find?_cons, show (decide ((n, a).1 = k)) = false by simpa using hnk]
      have := ih (n + 1) k
      unfold dictGetN at this
      rw [this]
      by_cases hle : n ≤ k
      · have hlt : n + 1 ≤ k := by omega
        rw [if_pos hle, if_pos hlt]
        have : k - n = (k - (n + 1)) + 1 := by omega
        rw [this]
        rfl
      · rw [if_neg hle, if_neg (by omega)]

theorem dictGetN_enum {α : Type} (dflt : α) (l : List α) (k : ℕ) :
    dictGetN l.enum k dflt = l.getD k dflt := by
  rw [show l.enum = List.enumFrom 0 l from rfl, dictGetN_enumFrom]
  simp

theorem mem_enumFrom_spec {α : Type} (dflt : α) :
    ∀ (l : List α) (n : ℕ) (p : ℕ × α), p ∈ List.enumFrom n l →
      n ≤ p.1 ∧ p.1 < n + l.length ∧ p.2 = l.getD (p.1 - n) dflt := by
  intro l
  induction l with
  | nil => intro n p h; simp [List.enumFrom] at h
  | cons a t ih =>
    intro n p h
    rw [List.enumFrom_cons] at h
    rcases List.mem_cons.mp h with h1 | h1
    · rw [h1]
      refine ⟨le_refl n, by simp, by simp⟩
    · obtain ⟨ha, hb, hc⟩ := ih (n + 1) p h1
      refine ⟨by omega, by simp only [List.length_cons]; omega, ?_⟩
      rw [hc]
      have he : p.1 - n = (p.1 - (n + 1)) + 1 := by omega
      rw [he]
      rfl

theorem mem_enumFrom_getD {α : Type} (dflt : α) :
    ∀ (l : List α) (n i : ℕ), i < l.length →
      (n + i, l.getD i dflt) ∈ List.enumFrom n l := by
  intro l
  induction l with
  | nil => intro n i h; simp at h
  | cons a t ih =>
    intro n i h
    rw [List.enumFrom_cons]
    cases i with
    | zero =>
      simp only [Nat.add_zero, List.getD_cons_zero]
      exact List.mem_cons_self _ _
    | succ j =>
      apply List.mem_cons_of_mem
      have := ih (n + 1) j (by simpa using h)
      have he : n + (j + 1) = (n + 1) + j := by omega
      rw [he]
      exact this

theorem mem_enum_getD {α : Type} (dflt : α) (l : List α) (i : ℕ) (h : i < l.length) :
    (i, l.getD i dflt) ∈ l.enum := by
  have := mem_enumFrom_getD dflt l 0 i h
  rw [show l.enum = List.enumFrom 0 l from rfl]
  simpa using this

theorem embList_map_fst (encode : Str → List ℤ) (docs : List Record) :
    ((docs.enum.map (fun p => (p.1, encode (reprText p.2)))).map Prod.fst) =
      List.range docs.length := by
  rw [List.map_map]
  rw [show (Prod.fst ∘ fun p : ℕ × Record => (p.1, encode (reprText p.2))) = Prod.fst
    from rfl]
  rw [List.enum_map_fst]

theorem rankedEntries_state (encode : Str → List ℤ) (docs : List Record)
    (question : Str) :
    rankedEntries (add_documents (ragInit encode) docs) question =
      List.insertionSort (rankLe (encode question))
        (docs.enum.map (fun p => (p.1, encode (reprText p.2)))) := by
  rw [rankedEntries, add_documents_state]

theorem query_take_form (encode : Str → List ℤ) (docs : List Record)
    (question : Str) {k : ℤ} (hk : 0 ≤ k) :
    query (add_documents (ragInit encode) docs) question k =
      ((rankedEntries (add_documents (ragInit encode) docs) question).take
        k.toNat).map (fun p => docs.getD p.1 []) := by
  unfold query pySliceTo
  rw [if_pos hk]
  have hdocs : (add_documents (ragInit encode) docs).documents = docs.enum := by
    rw [add_documents_state]
  rw [hdocs]
  apply List.map_congr_left
  intro p _
  exact dictGetN_enum [] docs p.1

theorem rankedEntries_length (encode : Str → List ℤ) (docs : List Record)
    (question : Str) :
    (rankedEntries (add_documents (ragInit encode) docs) question).length =
      docs.length := by
  rw [rankedEntries_state]
  rw [(List.perm_insertionSort _ _).length_eq, List.length_map, List.enum_length]

/-! ### Claim theorems for the retrieval model -/

/-- C4: for every reachable index state and non-negative `top_k`, `query`
returns exactly `min top_k n` records; the ranked entry list is a
permutation of the stored embeddings, ordered by strictly descending real
cosine similarity with equal-similarity entries in ascending insertion
order; the returned records are the stored records of the top `top_k`
ranked entries, and when `top_k` exceeds the number of stored entries all
of them are returned, in ranked order, without error. -/
theorem query_ranking_spec (encode : Str → List ℤ) (docs : List Record)
    (question : Str) (k : ℤ) (hk : 0 ≤ k) :
    (query (add_documents (ragInit encode) docs) question k).length =
        min k.toNat docs.length ∧
    (rankedEntries (add_documents (ragInit encode) docs) question).Perm
        (docs.enum.map (fun p => (p.1, encode (reprText p.2)))) ∧
    List.Pairwise
      (fun a b => simVal (encode question) b.2 < simVal (encode question) a.2 ∨
        (simVal (encode question) a.2 = simVal (encode question) b.2 ∧ a.1 < b.1))
      (rankedEntries (add_documents (ragInit encode) docs) question) ∧
    query (add_documents (ragInit encode) docs) question k =
      ((rankedEntries (add_documents (ragInit encode) docs) question).take
        k.toNat).map (fun p => docs.getD p.1 []) ∧
    (docs.length ≤ k.toNat →
      query (add_documents (ragInit encode) docs) question k =
        (rankedEntries (add_documents (ragInit encode) docs) question).map
          (fun p => docs.getD p.1 [])) := by
  have hquery := query_take_form encode docs question hk
  have hlen := rankedEntries_length encode docs question
  have hperm : (rankedEntries (add_documents (ragInit encode) docs) question).Perm
      (docs.enum.map (fun p => (p.1, encode (reprText p.2)))) := by
    rw [rankedEntries_state]
    exact List.perm_insertionSort _ _
  refine ⟨?_, hperm, ?_, hquery, ?_⟩
  · rw [hquery, List.length_map, List.length_take, hlen]
  · have hsorted := @List.sorted_insertionSort _ (rankLe (encode question)) _
      ⟨rankLe_total (encode question)⟩ ⟨rankLe_trans (encode question)⟩
      (docs.enum.map (fun p => (p.1, encode (reprText p.2))))
    have hnodup : ((docs.enum.map (fun p => (p.1, encode (reprText p.2)))).map
        Prod.fst).Nodup := by
      rw [embList_map_fst]
      exact List.nodup_range _
    have hnodup_r : ((rankedEntries (add_documents (ragInit encode) docs)
        question).map Prod.fst).Nodup :=
      ((hperm.map Prod.fst).symm).nodup hnodup
    have hpne : List.Pairwise (fun a b : ℕ × List ℤ => a.1 ≠ b.1)
        (rankedEntries (add_documents (ragInit encode) docs) question) := by
      have h' : List.Pairwise Ne ((rankedEntries (add_documents (ragInit encode)
          docs) question).map Prod.fst) := hnodup_r
      exact List.pairwise_map.mp h'
    have hpair : List.Pairwise (rankLe (encode question))
        (rankedEntries (add_documents (ragInit encode) docs) question) := by
      rw [rankedEntries_state]
      exact hsorted
    exact (hpair.and hpne).imp (fun h => rankLe_strict h.1 h.2)
  · intro hle
    rw [hquery, List.take_of_length_le (by rw [hlen]; exact hle)]

/-- Witness for the C4 theorem at a concrete two-document state with
`top_k = 5` exceeding the number of stored documents. -/
theorem query_ranking_spec_witness :
    (query (add_documents (ragInit encStub) docsStub) (("x").data) 5).length =
      min ((5:ℤ)).toNat docsStub.length :=
  (query_ranking_spec encStub docsStub (("x").data) 5 (by decide)).1

/-- C2 counterexample: with two stored documents, `query` with
`top_k = -1` does NOT reject the call: it silently returns a truncated
result — Python's negative slicing drops the last ranked entry, so exactly
one record comes back. -/
theorem query_negative_topk_counterexample :
    query (add_documents (ragInit encStub) docsStub) (("x").data) (-1) =
      [[((("a").data), (("b").data))]] ∧
    (query (add_documents (ragInit encStub) docsStub) (("x").data) (-1)).length
      = 1 := by
  constructor <;> decide

/-- C2 (amended): for every reachable index state and negative `top_k`,
`query` does not raise any validation error: it totally returns the ranked
list with its last `|top_k|` entries removed (Python negative-slice
semantics), i.e. `min(n, n - |top_k|)` records. -/
theorem query_negative_topk (encode : Str → List ℤ) (docs : List Record)
    (question : Str) (k : ℤ) (hk : k < 0) :
    query (add_documents (ragInit encode) docs) question k =
      ((rankedEntries (add_documents (ragInit encode) docs) question).take
        (docs.length - (-k).toNat)).map (fun p => docs.getD p.1 []) ∧
    (query (add_documents (ragInit encode) docs) question k).length =
      docs.length - (-k).toNat := by
  have hlen := rankedEntries_length encode docs question
  have hquery : query (add_documents (ragInit encode) docs) question k =
      ((rankedEntries (add_documents (ragInit encode) docs) question).take
        (docs.length - (-k).toNat)).map (fun p => docs.getD p.1 []) := by
    unfold query pySliceTo
    rw [if_neg (not_le.mpr hk), hlen]
    have hdocs : (add_documents (ragInit encode) docs).documents = docs.enum := by
      rw [add_documents_state]
    rw [hdocs]
    apply List.map_congr_left
    intro p _
    exact dictGetN_enum [] docs p.1
  refine ⟨hquery, ?_⟩
  rw [hquery, List.length_map, List.length_take, hlen]
  omega

/-- Witness for the amended C2 theorem: `top_k = -1` on two stored
documents yields exactly one record. -/
theorem query_negative_topk_witness :
    (query (add_documents (ragInit encStub) docsStub) (("x").data) (-1)).length
      = docsStub.length - ((-(-1) : ℤ)).toNat :=
  (query_negative_topk encStub docsStub (("x").data) (-1) (by decide)).2

/-- C6: `add_documents` embeds, for each document, the representative
string obtained by joining `"key: value"` for exactly the entries with
non-empty values, with a single space, in record insertion order — while
the stored record (in `documents`) is the full record, empty-valued
entries included. -/
theorem add_documents_repr_spec (encode : Str → List ℤ) (docs : List Record) :
    (add_documents (ragInit encode) docs).document_embeddings =
      docs.enum.map (fun p => (p.1,
        encode (List.intercalate [' ']
          ((p.2.filter (fun e => !e.2.isEmpty)).map
            (fun e => e.1 ++ ':' :: ' ' :: e.2))))) ∧
    (add_documents (ragInit encode) docs).documents = docs.enum := by
  rw [add_documents_state]
  exact ⟨rfl, rfl⟩

/-- C8 counterexample: two records with the SAME representative string
(the second has an extra empty-valued entry, which the representative
string omits) tie on similarity, and the tie-break prefers the earlier
insertion index: querying with the second record's representative string
returns the FIRST record at the head, so the queried record is not ranked
first. -/
theorem query_self_not_first_counterexample :
    reprText d1C8 = reprText d0C8 ∧
    query (add_documents (ragInit encStub) [d0C8, d1C8]) (reprText d1C8) 3 =
      [d0C8, d1C8] ∧
    d0C8 ≠ d1C8 := by
  refine ⟨?_, ?_, ?_⟩ <;> decide

/-- C8 (amended): immediately querying with a question identical to a
stored record's representative string ranks that record first, PROVIDED no
earlier-added record's embedding reaches a similarity to the query greater
than or equal to the query's self-similarity (in a tie the earliest record
wins instead); the record's stored similarity is the self-similarity of
identical vectors, which equals exactly 1 whenever the embedding is not
the zero vector. -/
theorem query_self_ranks_first (encode : Str → List ℤ) (docs : List Record)
    (i : ℕ) (hi : i < docs.length) (top_k : ℤ) (htop : 1 ≤ top_k)
    (hearlier : ∀ j, j < i →
      cosGeB (encode (reprText (docs.getD i [])))
        (encode (reprText (docs.getD j [])))
        (encode (reprText (docs.getD i []))) = false) :
    (query (add_documents (ragInit encode) docs)
        (reprText (docs.getD i [])) top_k).head? = some (docs.getD i []) ∧
    (sqNormQ (encode (reprText (docs.getD i []))) ≠ 0 →
      simVal (encode (reprText (docs.getD i [])))
        (encode (reprText (docs.getD i []))) = 1) := by
  constructor
  · have hxmem : ((i, encode (reprText (docs.getD i []))) : ℕ × List ℤ) ∈
        docs.enum.map (fun p => (p.1, encode (reprText p.2))) :=
      List.mem_map.mpr ⟨(i, docs.getD i []), mem_enum_getD [] docs i hi, rfl⟩
    have hchar : ∀ y ∈ docs.enum.map (fun p => (p.1, encode (reprText p.2))),
        y.2 = encode (reprText (docs.getD y.1 [])) := by
      intro y hy
      obtain ⟨p, hp, hpy⟩ := List.mem_map.mp hy
      obtain ⟨-, -, hgetd⟩ := mem_enumFrom_spec [] docs 0 p
        (by rw [← show docs.enum = List.enumFrom 0 docs from rfl]; exact hp)
      rw [← hpy]
      simp only []
      rw [hgetd]
      simp
    have hmin : ∀ y ∈ docs.enum.map (fun p => (p.1, encode (reprText p.2))),
        y ≠ (i, encode (reprText (docs.getD i []))) →
        rankLe (encode (reprText (docs.getD i [])))
            (i, encode (reprText (docs.getD i []))) y ∧
          ¬ rankLe (encode (reprText (docs.getD i []))) y
            (i, encode (reprText (docs.getD i []))) := by
      intro y hy hne
      have hyval := hchar y hy
      rcases Nat.lt_trichotomy y.1 i with hj | hj | hj
      · have hf : cosGeB (encode (reprText (docs.getD i []))) y.2
            (encode (reprText (docs.getD i []))) = false := by
          rw [hyval]
          exact hearlier y.1 hj
        constructor
        · refine ⟨cosGeB_self _ y.2, fun h => ?_⟩
          have h' : cosGeB (encode (reprText (docs.getD i []))) y.2
              (encode (reprText (docs.getD i []))) = true := h
          rw [hf] at h'
          cases h'
        · intro hcon
          have h' : cosGeB (encode (reprText (docs.getD i []))) y.2
              (encode (reprText (docs.getD i []))) = true := hcon.1
          rw [hf] at h'
          cases h'
      · exfalso
        apply hne
        have h2 : y.2 = encode (reprText (docs.getD i [])) := by
          rw [hyval, hj]
        exact Prod.ext hj h2
      · constructor
        · exact ⟨cosGeB_self _ y.2, fun _ => le_of_lt hj⟩
        · intro hcon
          have h2 : y.1 ≤ i := hcon.2 (cosGeB_self _ y.2)
          omega
    have hhead := insertionSort_head_min hxmem hmin
    unfold query pySliceTo
    rw [if_pos (by omega : (0:ℤ) ≤ top_k)]
    rw [rankedEntries_state]
    cases hr : List.insertionSort (rankLe (encode (reprText (docs.getD i []))))
        (docs.enum.map (fun p => (p.1, encode (reprText p.2)))) with
    | nil =>
      rw [hr] at hhead
      cases hhead
    | cons a rest =>
      rw [hr] at hhead
      have ha : a = (i, encode (reprText (docs.getD i []))) :=
        Option.some.inj hhead
      have ht : top_k.toNat = (top_k.toNat - 1) + 1 := by omega
      rw [ht, List.take_succ_cons, List.map_cons]
      have hdocs : (add_documents (ragInit encode) docs).documents = docs.enum := by
        rw [add_documents_state]
      rw [List.head?_cons, hdocs, ha]
      rw [dictGetN_enum]
  · intro h0
    unfold simVal
    rw [dotQ_self]
    have hA : adjNormSq (encode (reprText (docs.getD i []))) =
        sqNormQ (encode (reprText (docs.getD i []))) := if_neg h0
    rw [hA, Real.mul_self_sqrt (by
      exact_mod_cast sqNormQ_nonneg (encode (reprText (docs.getD i []))))]
    rw [div_self (by exact_mod_cast h0)]

/-- Witness for the amended C8 theorem at the first stored record of a
concrete state. -/
theorem query_self_ranks_first_witness :
    (query (add_documents (ragInit encStub) docsStub)
        (reprText (docsStub.getD 0 [])) 3).head? = some (docsStub.getD 0 []) :=
  (query_self_ranks_first encStub docsStub 0 (by decide) 3 (by decide)
    (fun j hj => absurd hj (Nat.not_lt_zero j))).1

/-! ### Claim theorem for the document pipeline -/

/-- C7: the corpus has exactly one record per input document, in input
order; a document whose decoder failed or whose extension is unsupported
contributes the empty record rather than being omitted, and `extract`
applied to the empty string returns the empty record. -/
theorem pipeline_corpus_invariant (docsIn : List (Str × Option Str)) (i : ℕ)
    (hi : i < docsIn.length) :
    (pipeline docsIn).length = docsIn.length ∧
    (pipeline docsIn).getD i [] =
      extract_information (parse_document (docsIn.getD i ([], none)).1
        (docsIn.getD i ([], none)).2) ∧
    ((docsIn.getD i ([], none)).2 = none ∨
      (asciiLower (docsIn.getD i ([], none)).1 ≠ ((".pdf").data) ∧
        asciiLower (docsIn.getD i ([], none)).1 ≠ ((".html").data)) →
      (pipeline docsIn).getD i [] = []) ∧
    extract_information [] = [] := by
  have hlen : (pipeline docsIn).length = docsIn.length := List.length_map _ _
  have hgd : (pipeline docsIn).getD i [] =
      extract_information (parse_document (docsIn.getD i ([], none)).1
        (docsIn.getD i ([], none)).2) := by
    rw [List.getD_eq_getElem?_getD]
    rw [show pipeline docsIn =
      docsIn.map (fun d => extract_information (parse_document d.1 d.2)) from rfl]
    rw [List.getElem?_map, List.getElem?_eq_getElem hi]
    rw [List.getD_eq_getElem docsIn ([], none) hi]
    rfl
  refine ⟨hlen, hgd, ?_, rfl⟩
  intro hfail
  rw [hgd]
  have hparse : parse_document (docsIn.getD i ([], none)).1
      (docsIn.getD i ([], none)).2 = [] := by
    unfold parse_document
    rcases hfail with hnone | ⟨hpdf, hhtml⟩
    · rw [hnone]
      split <;> rfl
    · rw [if_neg]
      rintro (h | h)
      · exact hpdf h
      · exact hhtml h
  rw [hparse]
  rfl

/-- Witness for the C7 theorem: a single-document input with an
unsupported extension yields a one-record corpus whose record is empty. -/
theorem pipeline_corpus_invariant_witness :
    (pipeline pipeStub).getD 0 [] = [] :=
  (pipeline_corpus_invariant pipeStub 0 (by decide)).2.2.1 (Or.inr (by decide))

/-! ### JSON round-trip: tokens -/

theorem skipWs_cons_of_ws {c : Char} (h : jsonWs c = true) (t : List Char) :
    skipWs (c :: t) = skipWs t := by
  simp [skipWs, List.dropWhile_cons, h]

theorem skipWs_cons_of_not {c : Char} (h : jsonWs c = false) (t : List Char) :
    skipWs (c :: t) = c :: t := by
  simp [skipWs, List.dropWhile_cons, h]

theorem skipWs_nl4 (x : List Char) : skipWs (nl4 ++ x) = skipWs x := by
  rw [show nl4 ++ x = '\n' :: (' ' :: (' ' :: (' ' :: (' ' :: x)))) from rfl]
  rw [skipWs_cons_of_ws (by decide), skipWs_cons_of_ws (by decide),
    skipWs_cons_of_ws (by decide), skipWs_cons_of_ws (by decide),
    skipWs_cons_of_ws (by decide)]

theorem skipWs_nl8 (x : List Char) : skipWs (nl8 ++ x) = skipWs x := by
  rw [show nl8 ++ x =
    '\n' :: (' ' :: (' ' :: (' ' :: (' ' :: (' ' :: (' ' :: (' ' :: (' ' :: x))))))))
    from rfl]
  rw [skipWs_cons_of_ws (by decide), skipWs_cons_of_ws (by decide),
    skipWs_cons_of_ws (by decide), skipWs_cons_of_ws (by decide),
    skipWs_cons_of_ws (by decide), skipWs_cons_of_ws (by decide),
    skipWs_cons_of_ws (by decide), skipWs_cons_of_ws (by decide),
    skipWs_cons_of_ws (by decide)]

theorem decodeHexDigit_hexDigitChar : ∀ n, n < 16 →
    decodeHexDigit (hexDigitChar n) = some n := by decide

theorem hex4Val_hex4 {n : ℕ} (h : n < 65536) :
    hex4Val (hexDigitChar (n / 4096 % 16)) (hexDigitChar (n / 256 % 16))
      (hexDigitChar (n / 16 % 16)) (hexDigitChar (n % 16)) = some n := by
  have h1 := decodeHexDigit_hexDigitChar (n / 4096 % 16) (Nat.mod_lt _ (by norm_num))
  have h2 := decodeHexDigit_hexDigitChar (n / 256 % 16) (Nat.mod_lt _ (by norm_num))
  have h3 := decodeHexDigit_hexDigitChar (n / 16 % 16) (Nat.mod_lt _ (by norm_num))
  have h4 := decodeHexDigit_hexDigitChar (n % 16) (Nat.mod_lt _ (by norm_num))
  unfold hex4Val
  rw [h1, h2, h3, h4]
  simp only [Option.some.injEq]
  omega

theorem char_not_high_surrogate (c : Char) :
    ¬ (0xd800 ≤ c.toNat ∧ c.toNat ≤ 0xdbff) := by
  have h : c.toNat < 0xd800 ∨ (0xdfff < c.toNat ∧ c.toNat < 0x110000) := c.valid
  omega

theorem char_toNat_lt (c : Char) : c.toNat < 0x110000 := by
  have h : c.toNat < 0xd800 ∨ (0xdfff < c.toNat ∧ c.toNat < 0x110000) := c.valid
  omega

theorem parseEsc_pair (c : Char) (t : List Char) (hi lo : ℕ)
    (hhi_range : 0xd800 ≤ hi ∧ hi ≤ 0xdbff) (hhi_lt : hi < 65536)
    (hlo_range : 0xdc00 ≤ lo ∧ lo ≤ 0xdfff) (hlo_lt : lo < 65536)
    (hcomb : 0x10000 + (hi - 0xd800) * 0x400 + (lo - 0xdc00) = c.toNat) :
    parseEsc ('u' :: (hexDigitChar (hi / 4096 % 16) ::
      (hexDigitChar (hi / 256 % 16) ::
        (hexDigitChar (hi / 16 % 16) ::
          (hexDigitChar (hi % 16) ::
            ('\\' :: ('u' :: (hexDigitChar (lo / 4096 % 16) ::
              (hexDigitChar (lo / 256 % 16) ::
                (hexDigitChar (lo / 16 % 16) ::
                  (hexDigitChar (lo % 16) :: t))))))))))) =
      some (c, t) := by
  simp [parseEsc, parseU, hex4Val_hex4 hhi_lt,
    hex4Val_hex4 hlo_lt, hhi_range.1, hhi_range.2,
    hlo_range.1, hlo_range.2, hcomb, Char.ofNat_toNat]

theorem parseEsc_single (c : Char) (t : List Char) (h9 : c.toNat < 0x10000) :
    parseEsc ('u' :: (hexDigitChar (c.toNat / 4096 % 16) ::
      (hexDigitChar (c.toNat / 256 % 16) ::
        (hexDigitChar (c.toNat / 16 % 16) ::
          (hexDigitChar (c.toNat % 16) :: t))))) = some (c, t) := by
  have hval : Nat.isValidChar c.toNat := c.valid
  simp [parseEsc, parseU, hex4Val_hex4 h9,
    char_not_high_surrogate c, hval, Char.ofNat_toNat]

theorem parseJString_backslash (fuel : ℕ) (rest : List Char) :
    parseJString (fuel + 1) ('\\' :: rest) =
      match parseEsc rest with
      | none => none
      | some (ch, r2) => (parseJString fuel r2).map (fun p => (ch :: p.1, p.2)) := by
  simp [parseJString]

theorem parseJString_escape (c : Char) (t : List Char) (fuel : ℕ) :
    parseJString (fuel + 1) (jsonEscapeChar c ++ t) =
      (parseJString fuel t).map (fun p => (c :: p.1, p.2)) := by
  by_cases h1 : c = '"'
  · subst h1; rfl
  · by_cases h2 : c = '\\'
    · subst h2; rfl
    · by_cases h3 : c = '\x08'
      · subst h3; rfl
      · by_cases h4 : c = '\t'
        · subst h4; rfl
        · by_cases h5 : c = '\n'
          · subst h5; rfl
          · by_cases h6 : c = '\x0c'
            · subst h6; rfl
            · by_cases h7 : c = '\r'
              · subst h7; rfl
              · by_cases h8 : 0x20 ≤ c.toNat ∧ c.toNat ≤ 0x7e
                · have hesc : jsonEscapeChar c = [c] := by
                    unfold jsonEscapeChar
                    rw [if_neg h1, if_neg h2, if_neg h3, if_neg h4, if_neg h5,
                      if_neg h6, if_neg h7, if_pos h8]
                  rw [hesc, List.singleton_append]
                  simp only [parseJString]
                  rw [if_neg h1, if_neg h2,
                    if_neg (show ¬ c.toNat < 0x20 by omega)]
                · by_cases h9 : c.toNat < 0x10000
                  · have hesc : jsonEscapeChar c = '\\' :: 'u' :: hex4 c.toNat := by
                      unfold jsonEscapeChar
                      rw [if_neg h1, if_neg h2, if_neg h3, if_neg h4, if_neg h5,
                        if_neg h6, if_neg h7, if_neg h8, if_pos h9]
                    have hu := parseEsc_single c t h9
                    rw [hesc]
                    rw [show ('\\' :: 'u' :: hex4 c.toNat) ++ t =
                      '\\' :: ('u' :: (hexDigitChar (c.toNat / 4096 % 16) ::
                        (hexDigitChar (c.toNat / 256 % 16) ::
                          (hexDigitChar (c.toNat / 16 % 16) ::
                            (hexDigitChar (c.toNat % 16) :: t))))) from rfl]
                    rw [parseJString_backslash, hu]
                  · have hlt := char_toNat_lt c
                    have hesc : jsonEscapeChar c =
                        ('\\' :: 'u' :: hex4 (0xd800 + (c.toNat - 0x10000) / 0x400)) ++
                          ('\\' :: 'u' :: hex4 (0xdc00 + (c.toNat - 0x10000) % 0x400)) := by
                      unfold jsonEscapeChar
                      rw [if_neg h1, if_neg h2, if_neg h3, if_neg h4, if_neg h5,
                        if_neg h6, if_neg h7, if_neg h8, if_neg h9]
                    have hu := parseEsc_pair c t
                      (0xd800 + (c.toNat - 0x10000) / 0x400)
                      (0xdc00 + (c.toNat - 0x10000) % 0x400)
                      (by constructor <;> omega) (by omega)
                      (by constructor <;> omega) (by omega)
                      (by omega)
                    rw [hesc]
                    rw [show (('\\' :: 'u' :: hex4 (0xd800 + (c.toNat - 0x10000) / 0x400)) ++
                        ('\\' :: 'u' :: hex4 (0xdc00 + (c.toNat - 0x10000) % 0x400))) ++ t =
                      '\\' :: ('u' :: (hexDigitChar ((0xd800 + (c.toNat - 0x10000) / 0x400) / 4096 % 16) ::
                        (hexDigitChar ((0xd800 + (c.toNat - 0x10000) / 0x400) / 256 % 16) ::
                          (hexDigitChar ((0xd800 + (c.toNat - 0x10000) / 0x400) / 16 % 16) ::
                            (hexDigitChar ((0xd800 + (c.toNat - 0x10000) / 0x400) % 16) ::
                              ('\\' :: ('u' :: (hexDigitChar ((0xdc00 + (c.toNat - 0x10000) % 0x400) / 4096 % 16) ::
                                (hexDigitChar ((0xdc00 + (c.toNat - 0x10000) % 0x400) / 256 % 16) ::
                                  (hexDigitChar ((0xdc00 + (c.toNat - 0x10000) % 0x400) / 16 % 16) ::
                                    (hexDigitChar ((0xdc00 + (c.toNat - 0x10000) % 0x400) % 16) :: t))))))))))) from rfl]
                    rw [parseJString_backslash, hu]

theorem parseJString_roundtrip :
    ∀ (s : Str) (t : List Char) (fuel : ℕ), s.length ≤ fuel →
      parseJString (fuel + 1) (List.flatten (s.map jsonEscapeChar) ++ ('"' :: t)) =
        some (s, t) := by
  intro s
  induction s with
  | nil =>
    intro t fuel _
    simp [parseJString]
  | cons c s2 ih =>
    intro t fuel hf
    obtain ⟨f2, rfl⟩ : ∃ f2, fuel = f2 + 1 := ⟨fuel - 1, by
      have : 1 ≤ fuel := le_trans (by simp) hf
      omega⟩
    rw [List.map_cons, List.flatten_cons, List.append_assoc, parseJString_escape]
    rw [ih t f2 (by simpa using hf)]
    rfl

theorem escape_length_ge (c : Char) : 1 ≤ (jsonEscapeChar c).length := by
  unfold jsonEscapeChar
  split_ifs <;> simp

theorem flatten_escape_length (s : Str) :
    s.length ≤ (List.flatten (s.map jsonEscapeChar)).length := by
  induction s with
  | nil => simp
  | cons c s2 ih =>
    rw [List.map_cons, List.flatten_cons, List.length_append, List.length_cons]
    have := escape_length_ge c
    omega

/-! ### JSON round-trip: objects and arrays -/

theorem parseJString_at_length (k : Str) (X : List Char) :
    parseJString ((List.flatten (k.map jsonEscapeChar) ++ ('"' :: X)).length + 1)
      (List.flatten (k.map jsonEscapeChar) ++ ('"' :: X)) = some (k, X) := by
  apply parseJString_roundtrip
  have := flatten_escape_length k
  simp only [List.length_append, List.length_cons]
  omega

theorem parseMembers_step (kv : Str × Str) (acc : Record) (fuel : ℕ)
    (X : List Char) :
    parseMembers (fuel + 1) (pairStr kv ++ X) acc =
      (match skipWs X with
      | ',' :: r6 => parseMembers fuel (skipWs r6) (insertKV acc kv.1 kv.2)
      | '}' :: r6 => some (insertKV acc kv.1 kv.2, r6)
      | _ => none) := by
  have e1 : pairStr kv ++ X =
      '"' :: (List.flatten (kv.1.map jsonEscapeChar) ++
        ('"' :: (':' :: (' ' :: ('"' :: (List.flatten (kv.2.map jsonEscapeChar) ++
          ('"' :: X))))))) := by
    simp [pairStr, jsonString]
  rw [e1]
  simp only [parseMembers]
  rw [parseJString_at_length]
  simp only []
  rw [skipWs_cons_of_not (by decide)]
  simp only []
  rw [skipWs_cons_of_ws (by decide), skipWs_cons_of_not (by decide)]
  simp only []
  rw [parseJString_at_length]

theorem parseMembers_roundtrip :
    ∀ (r : Record) (kv : Str × Str) (acc : Record) (fuel : ℕ) (rest : List Char),
      r.length ≤ fuel →
      (∀ e ∈ (kv :: r : Record), ¬ keyMem acc e.1) →
      ((kv :: r : Record).map Prod.fst).Nodup →
      parseMembers (fuel + 1)
          (pairStr kv ++ (membersRest r ++ (nl4 ++ ('}' :: rest)))) acc =
        some (acc ++ kv :: r, rest) := by
  intro r
  induction r with
  | nil =>
    intro kv acc fuel rest _ hdisj _
    rw [parseMembers_step]
    rw [show membersRest [] ++ (nl4 ++ ('}' :: rest)) = nl4 ++ ('}' :: rest) from rfl]
    rw [skipWs_nl4, skipWs_cons_of_not (by decide)]
    simp only []
    rw [show insertKV acc kv.1 kv.2 = acc ++ [(kv.1, kv.2)] from
      if_neg (hdisj kv (List.mem_cons_self _ _))]
  | cons kv2 r2 ih =>
    intro kv acc fuel rest hfuel hdisj hnd
    obtain ⟨f2, rfl⟩ : ∃ f2, fuel = f2 + 1 :=
      ⟨fuel - 1, by simp only [List.length_cons] at hfuel; omega⟩
    rw [parseMembers_step]
    rw [show membersRest (kv2 :: r2) ++ (nl4 ++ ('}' :: rest)) =
      ',' :: (nl8 ++ (pairStr kv2 ++ (membersRest r2 ++ (nl4 ++ ('}' :: rest)))))
      from by simp [membersRest]]
    rw [skipWs_cons_of_not (by decide)]
    simp only []
    rw [skipWs_nl8]
    have hq : skipWs (pairStr kv2 ++ (membersRest r2 ++ (nl4 ++ ('}' :: rest)))) =
        pairStr kv2 ++ (membersRest r2 ++ (nl4 ++ ('}' :: rest))) := by
      rw [show pairStr kv2 ++ (membersRest r2 ++ (nl4 ++ ('}' :: rest))) =
        '"' :: (List.flatten (kv2.1.map jsonEscapeChar) ++
          ('"' :: (':' :: (' ' :: ('"' :: (List.flatten (kv2.2.map jsonEscapeChar) ++
            ('"' :: (membersRest r2 ++ (nl4 ++ ('}' :: rest))))))))))
        from by simp [pairStr, jsonString]]
      exact skipWs_cons_of_not (by decide) _
    rw [hq]
    have hins : insertKV acc kv.1 kv.2 = acc ++ [kv] :=
      if_neg (hdisj kv (List.mem_cons_self _ _))
    rw [hins]
    rw [ih kv2 (acc ++ [kv]) f2 rest
      (by simp only [List.length_cons] at hfuel; omega) ?_ ?_]
    · rw [List.append_assoc]
      rfl
    · intro e he
      intro hmem
      rcases keyMem_append.mp hmem with h | h
      · exact hdisj e (List.mem_cons_of_mem _ he) h
      · have heq : e.1 = kv.1 := by simpa [keyMem] using h
        rw [List.map_cons, List.nodup_cons] at hnd
        apply hnd.1
        rw [← heq]
        exact List.mem_map.mpr ⟨e, he, rfl⟩
    · rw [List.map_cons, List.nodup_cons] at hnd
      exact hnd.2

theorem parseDict_roundtrip (r : Record) (fuel : ℕ) (rest : List Char)
    (hfuel : r.length ≤ fuel + 1) (hnd : (r.map Prod.fst).Nodup) :
    parseDict (fuel + 1) (jsonDict r ++ rest) = some (r, rest) := by
  cases r with
  | nil =>
    rw [show jsonDict [] ++ rest = '{' :: ('}' :: rest) from rfl]
    simp only [parseDict]
    rw [skipWs_cons_of_not (by decide)]
    rfl
  | cons kv r2 =>
    rw [show jsonDict (kv :: r2) ++ rest =
      '{' :: (nl8 ++ (pairStr kv ++ (membersRest r2 ++ (nl4 ++ ('}' :: rest)))))
      from by simp [jsonDict]]
    simp only [parseDict]
    rw [skipWs_nl8]
    have hq : skipWs (pairStr kv ++ (membersRest r2 ++ (nl4 ++ ('}' :: rest)))) =
        pairStr kv ++ (membersRest r2 ++ (nl4 ++ ('}' :: rest))) := by
      rw [show pairStr kv ++ (membersRest r2 ++ (nl4 ++ ('}' :: rest))) =
        '"' :: (List.flatten (kv.1.map jsonEscapeChar) ++
          ('"' :: (':' :: (' ' :: ('"' :: (List.flatten (kv.2.map jsonEscapeChar) ++
            ('"' :: (membersRest r2 ++ (nl4 ++ ('}' :: rest))))))))))
        from by simp [pairStr, jsonString]]
      exact skipWs_cons_of_not (by decide) _
    rw [hq]
    have h1 := parseMembers_roundtrip r2 kv [] fuel rest
      (by simp only [List.length_cons] at hfuel; omega)
      (by intro e _; simp [keyMem]) hnd
    rw [show (([] : Record) ++ kv :: r2) = kv :: r2 from rfl] at h1
    rw [← h1]
    rfl

theorem skipWs_jsonDict_append (r : Record) (X : List Char) :
    skipWs (jsonDict r ++ X) = jsonDict r ++ X := by
  cases r with
  | nil => exact skipWs_cons_of_not (by decide) _
  | cons kv r2 =>
    rw [show jsonDict (kv :: r2) ++ X =
      '{' :: (nl8 ++ (pairStr kv ++ (membersRest r2 ++ (nl4 ++ ('}' :: X)))))
      from by simp [jsonDict]]
    rw [show ('{' : Char) :: (nl8 ++ (pairStr kv ++ (membersRest r2 ++ (nl4 ++ ('}' :: X))))) =
      '{' :: (nl8 ++ (pairStr kv ++ (membersRest r2 ++ (nl4 ++ ('}' :: X))))) from rfl]
    exact skipWs_cons_of_not (by decide) _

theorem parseItems_roundtrip :
    ∀ (ds : List Record) (d : Record) (acc : List Record) (fuel : ℕ)
      (rest : List Char),
      jsonFuel (d :: ds) ≤ fuel + 1 →
      (∀ r ∈ (d :: ds), (r.map Prod.fst).Nodup) →
      parseItems (fuel + 1)
          (jsonDict d ++ (itemsRest ds ++ ('\n' :: (']' :: rest)))) acc =
        some (acc ++ d :: ds, rest) := by
  intro ds
  induction ds with
  | nil =>
    intro d acc fuel rest hfuel hnd
    rw [show itemsRest [] ++ ('\n' :: (']' :: rest)) = '\n' :: (']' :: rest)
      from rfl]
    simp only [parseItems]
    rw [parseDict_roundtrip d fuel _
      (by simp only [jsonFuel] at hfuel; omega) (hnd d (List.mem_cons_self _ _))]
    simp only []
    rw [skipWs_cons_of_ws (by decide), skipWs_cons_of_not (by decide)]
    rfl
  | cons d2 ds2 ih =>
    intro d acc fuel rest hfuel hnd
    obtain ⟨f2, rfl⟩ : ∃ f2, fuel = f2 + 1 :=
      ⟨fuel - 1, by simp only [jsonFuel] at hfuel; omega⟩
    rw [show itemsRest (d2 :: ds2) ++ ('\n' :: (']' :: rest)) =
      ',' :: (nl4 ++ (jsonDict d2 ++ (itemsRest ds2 ++ ('\n' :: (']' :: rest)))))
      from by simp [itemsRest]]
    simp only [parseItems]
    rw [parseDict_roundtrip d (f2 + 1) _
      (by simp only [jsonFuel] at hfuel; omega) (hnd d (List.mem_cons_self _ _))]
    simp only []
    rw [skipWs_cons_of_not (by decide)]
    simp only []
    rw [skipWs_nl4, skipWs_jsonDict_append]
    have ih2 := ih d2 (acc ++ [d]) f2 rest
      (by simp only [jsonFuel] at hfuel ⊢; omega)
      (fun r hr => hnd r (List.mem_cons_of_mem _ hr))
    simp only [parseItems] at ih2
    rw [ih2]
    rw [List.append_assoc]
    rfl

theorem membersRest_length (r : Record) : r.length ≤ (membersRest r).length := by
  induction r with
  | nil => simp [membersRest]
  | cons kv r2 ih =>
    simp only [membersRest, List.length_cons, List.length_append]
    omega

theorem jsonDict_length (r : Record) : r.length + 2 ≤ (jsonDict r).length := by
  cases r with
  | nil => simp [jsonDict]
  | cons kv r2 =>
    have h := membersRest_length r2
    simp only [jsonDict, List.length_cons, List.length_append]
    simp only [nl8, nl4, List.length_cons]
    omega

theorem itemsRest_length (ds : List Record) :
    jsonFuel ds ≤ (itemsRest ds).length := by
  induction ds with
  | nil => simp [jsonFuel, itemsRest]
  | cons d ds2 ih =>
    have h := jsonDict_length d
    simp only [jsonFuel, itemsRest, List.length_cons, List.length_append]
    simp only [nl4, List.length_cons]
    omega

theorem json_dumps_length (d : Record) (ds : List Record) :
    jsonFuel (d :: ds) ≤ (json_dumps (d :: ds)).length := by
  have h1 := jsonDict_length d
  have h2 := itemsRest_length ds
  simp only [json_dumps, jsonFuel, List.length_cons, List.length_append]
  simp only [nl4, List.length_cons]
  omega

theorem json_roundtrip (data : List Record)
    (hnd : ∀ r ∈ data, (r.map Prod.fst).Nodup) :
    json_loads (json_dumps data) = some data := by
  cases data with
  | nil => rfl
  | cons d ds =>
    have hlen := json_dumps_length d ds
    unfold json_loads
    rw [show json_dumps (d :: ds) =
      '[' :: (nl4 ++ (jsonDict d ++ (itemsRest ds ++ ('\n' :: (']' :: ([] : List Char))))))
      from by simp [json_dumps]]
    rw [skipWs_cons_of_not (by decide)]
    simp only []
    rw [skipWs_nl4, skipWs_jsonDict_append]
    obtain ⟨tl, htl⟩ : ∃ tl, jsonDict d = '{' :: tl := by
      cases d with
      | nil => exact ⟨['}'], rfl⟩
      | cons kv r2 =>
        refine ⟨nl8 ++ (pairStr kv ++ (membersRest r2 ++ (nl4 ++ ['}']))), ?_⟩
        simp [jsonDict]
    split
    · rename_i r2 heq
      rw [htl] at heq
      simp only [List.cons_append, List.cons.injEq] at heq
      exact absurd heq.1 (by decide)
    · rw [parseItems_roundtrip ds d []
        (('[' :: (nl4 ++ (jsonDict d ++ (itemsRest ds ++ ('\n' :: (']' :: ([] : List Char))))))).length)
        [] ?_ hnd]
      · rfl
      · simp only [List.length_cons, List.length_append] at hlen ⊢
        simp only [json_dumps, List.length_cons, List.length_append] at hlen
        omega

/-! ### Extracted records are genuine dicts: their keys are unique -/

theorem insertKV_keys_nodup {m : Record} {k v : Str}
    (h : (m.map Prod.fst).Nodup) : ((insertKV m k v).map Prod.fst).Nodup := by
  unfold insertKV
  by_cases hk : keyMem m k
  · rw [if_pos hk, map_fst_replace]
    exact h
  · rw [if_neg hk, List.map_append]
    rw [List.nodup_append]
    refine ⟨h, by simp, ?_⟩
    intro a ha hb
    simp only [List.map_cons, List.map_nil, List.mem_singleton] at hb
    subst hb
    exact hk (by simpa [keyMem] using ha)

theorem firstPass_fold_keys_nodup :
    ∀ (lines : List Str) (acc : Record), (acc.map Prod.fst).Nodup →
      ((lines.foldl passStep acc).map Prod.fst).Nodup := by
  intro lines
  induction lines with
  | nil => intro acc h; exact h
  | cons L ls ih =>
    intro acc h
    rw [List.foldl_cons]
    apply ih
    cases hL : lineMatch L with
    | none => rw [passStep, hL]; exact h
    | some kv => rw [passStep, hL]; exact insertKV_keys_nodup h

theorem secondPass_fold_keys_nodup :
    ∀ (lines : List Str) (acc : Record), (acc.map Prod.fst).Nodup →
      ((lines.foldl secondStep acc).map Prod.fst).Nodup := by
  intro lines
  induction lines with
  | nil => intro acc h; exact h
  | cons L ls ih =>
    intro acc h
    rw [List.foldl_cons]
    apply ih
    by_cases hc : L ≠ [] ∧ ¬ keyMem acc L
    · rw [show secondStep acc L = acc ++ [(L, [])] from if_pos hc]
      rw [List.map_append, List.nodup_append]
      refine ⟨h, by simp, ?_⟩
      intro a ha hb
      simp only [List.map_cons, List.map_nil, List.mem_singleton] at hb
      subst hb
      exact hc.2 (by simpa [keyMem] using ha)
    · rw [show secondStep acc L = acc from if_neg hc]
      exact h

theorem extract_keys_nodup (text : Str) :
    ((extract_information text).map Prod.fst).Nodup := by
  rw [extract_information, secondPass]
  apply secondPass_fold_keys_nodup
  rw [firstPass]
  apply firstPass_fold_keys_nodup
  simp

/-! ### Claim theorem for the JSON artifact -/

/-- C9: serializing any list of extracted records to the JSON output
artifact (exactly as `json.dump(..., indent=4)` writes it) and parsing the
artifact back yields mappings equal to the in-memory records, with each
object's key order equal to the record's insertion order as produced by
extraction (record equality here is equality of ordered key-value lists). -/
theorem extracted_json_roundtrip (texts : List Str) :
    json_loads (json_dumps (texts.map extract_information)) =
      some (texts.map extract_information) := by
  apply json_roundtrip
  intro r hr
  obtain ⟨t, -, rfl⟩ := List.mem_map.mp hr
  exact extract_keys_nodup t

end Main
